import Mathlib

set_option maxHeartbeats 1000000
set_option autoImplicit false

/- Shallow embedding of the trie implementations in
   `src/project0/src/single_threaded_trie.rs` (the single-threaded variant)
   and `src/project0/src/concurrent_trie.rs` (the concurrent variant).

   Modelling conventions:
   * `HashMap<char, TrieNode<T>>` is modelled as an association list
     `List (Char × TrieNode T)` with first-match lookup (`alGet`).
     `entry(..)`-vacant insertion followed by `get_mut` is `alPut`
     (mutate the binding in place, or append a fresh one);
     `HashMap::remove` is `alErase` (drop the binding).
   * The raw pointer `parent_node_ptr` is non-owning and always refers to the
     node one step up the key path (null for a top-level node).  The upward
     pointer chase of the single-threaded `Trie::remove` is modelled by
     walking, deepest first, the list of nodes its downward phase passed
     through — the same nodes the pointer chain visits, in the same order.
   * The `&'static str` error values are kept verbatim:
     "Key can not be empty", "Duplicate keys are not allowed",
     "No corresponding value".
   * `TrieNode::insert` is character-for-character identical in the two
     source files, as is the character-walking loop of `Trie::get`; these are
     embedded once (`TrieNode.insertGo`, `getLoop`) and wrapped by both
     variants.  `Trie::remove` genuinely differs between the two files and is
     embedded separately (`sremove` vs `cremove`).
   * The `RwLock` of the concurrent variant orders whole operations; under a
     sequential schedule each operation is the same state transformer as the
     unlocked body, which is what is embedded. -/

inductive TrieNode (T : Type) : Type where
  | mk (value : Option T) (children : List (Char × TrieNode T)) : TrieNode T

abbrev TrieMap (T : Type) := List (Char × TrieNode T)

/-- Field accessor for `TrieNode.value`. -/
def TrieNode.value {T : Type} : TrieNode T → Option T
  | .mk v _ => v

/-- Field accessor for `TrieNode.child_nodes`. -/
def TrieNode.children {T : Type} : TrieNode T → List (Char × TrieNode T)
  | .mk _ cs => cs

@[simp] theorem TrieNode.value_mk {T : Type} (v : Option T) (cs : TrieMap T) :
    (TrieNode.mk v cs).value = v := rfl

@[simp] theorem TrieNode.children_mk {T : Type} (v : Option T) (cs : TrieMap T) :
    (TrieNode.mk v cs).children = cs := rfl

theorem TrieNode.eta {T : Type} (n : TrieNode T) : TrieNode.mk n.value n.children = n := by
  cases n; rfl

/-- `TrieNode::is_end`: true iff the node stores a value. -/
def TrieNode.isEnd {T : Type} (n : TrieNode T) : Bool :=
  n.value.isSome

/-- `TrieNode::new` / `TrieNode::new_top_level_node`: a fresh node with no
value and no children (the parent pointer is positional, see header). -/
def TrieNode.newNode {T : Type} : TrieNode T :=
  .mk none []

/-- `Trie::new`: the empty top-level map. -/
def trieNew (T : Type) : TrieMap T := []

/-- `HashMap::get`: first-match lookup in the association list. -/
def alGet {T : Type} : TrieMap T → Char → Option (TrieNode T)
  | [], _ => none
  | (a, n) :: l, c => if a = c then some n else alGet l c

/-- `HashMap::entry(c)` vacant-insert followed by `get_mut(c)` returning a
mutable slot: replace the first binding of `c` in place, or append a fresh
binding when `c` is absent. -/
def alPut {T : Type} : Char → TrieNode T → TrieMap T → TrieMap T
  | c, x, [] => [(c, x)]
  | c, x, (a, n) :: l => if a = c then (a, x) :: l else (a, n) :: alPut c x l

/-- `HashMap::remove(c)`: drop the binding of `c`.  (A real `HashMap` holds at
most one binding per key; on such lists this equals dropping the first
match.) -/
def alErase {T : Type} : Char → TrieMap T → TrieMap T
  | _, [] => []
  | c, (a, n) :: l => if a = c then alErase c l else (a, n) :: alErase c l

/-- In-place mutation of the node stored under `c`, as performed through the
mutable reference obtained by `get_mut(c)`. -/
def alUpdate {T : Type} : Char → (TrieNode T → TrieNode T) → TrieMap T → TrieMap T
  | _, _, [] => []
  | c, f, (a, n) :: l => if a = c then (a, f n) :: l else (a, n) :: alUpdate c f l

@[simp] theorem alGet_nil {T : Type} (c : Char) : alGet ([] : TrieMap T) c = none := rfl

@[simp] theorem alGet_cons {T : Type} (a : Char) (n : TrieNode T) (l : TrieMap T) (c : Char) :
    alGet ((a, n) :: l) c = if a = c then some n else alGet l c := rfl

theorem alGet_alPut_self {T : Type} (c : Char) (x : TrieNode T) (l : TrieMap T) :
    alGet (alPut c x l) c = some x := by
  induction l with
  | nil => simp [alPut]
  | cons p l ih =>
    obtain ⟨a, n⟩ := p
    by_cases h : a = c <;> simp [alPut, h, ih]

theorem alGet_alPut_ne {T : Type} (c c' : Char) (x : TrieNode T) (l : TrieMap T)
    (h : c' ≠ c) : alGet (alPut c x l) c' = alGet l c' := by
  have h2 : c ≠ c' := Ne.symm h
  induction l with
  | nil => simp [alPut, h2]
  | cons p l ih =>
    obtain ⟨a, n⟩ := p
    by_cases ha : a = c
    · subst ha
      simp [alPut, h2]
    · simp only [alPut, if_neg ha, alGet_cons, ih]

theorem alPut_of_alGet_eq {T : Type} (c : Char) (x : TrieNode T) (l : TrieMap T)
    (h : alGet l c = some x) : alPut c x l = l := by
  induction l with
  | nil => simp at h
  | cons p l ih =>
    obtain ⟨a, n⟩ := p
    by_cases ha : a = c
    · subst ha
      simp at h
      simp [alPut, h]
    · simp [ha] at h
      simp [alPut, ha, ih h]

theorem alGet_alErase_self {T : Type} (c : Char) (l : TrieMap T) :
    alGet (alErase c l) c = none := by
  induction l with
  | nil => simp [alErase]
  | cons p l ih =>
    obtain ⟨a, n⟩ := p
    by_cases h : a = c <;> simp [alErase, h, ih]

theorem alGet_alErase_ne {T : Type} (c c' : Char) (l : TrieMap T)
    (h : c' ≠ c) : alGet (alErase c l) c' = alGet l c' := by
  have h2 : c ≠ c' := Ne.symm h
  induction l with
  | nil => simp [alErase]
  | cons p l ih =>
    obtain ⟨a, n⟩ := p
    by_cases ha : a = c
    · subst ha
      simp [alErase, h2, ih]
    · simp only [alErase, if_neg ha, alGet_cons, ih]

theorem alGet_alUpdate_self {T : Type} (c : Char) (f : TrieNode T → TrieNode T)
    (l : TrieMap T) (x : TrieNode T) (h : alGet l c = some x) :
    alGet (alUpdate c f l) c = some (f x) := by
  induction l with
  | nil => simp at h
  | cons p l ih =>
    obtain ⟨a, n⟩ := p
    by_cases ha : a = c
    · subst ha
      simp at h
      simp [alUpdate, h]
    · simp [ha] at h
      simp [alUpdate, ha, ih h]

theorem alGet_alUpdate_ne {T : Type} (c c' : Char) (f : TrieNode T → TrieNode T)
    (l : TrieMap T) (h : c' ≠ c) : alGet (alUpdate c f l) c' = alGet l c' := by
  have h2 : c ≠ c' := Ne.symm h
  induction l with
  | nil => simp [alUpdate]
  | cons p l ih =>
    obtain ⟨a, n⟩ := p
    by_cases ha : a = c
    · subst ha
      simp [alUpdate, h2]
    · simp only [alUpdate, if_neg ha, alGet_cons, ih]

theorem mem_alPut {T : Type} (c : Char) (x : TrieNode T) (l : TrieMap T)
    (q : Char × TrieNode T) (h : q ∈ alPut c x l) : q = (c, x) ∨ q ∈ l := by
  induction l with
  | nil =>
    simp [alPut] at h
    exact Or.inl h
  | cons p l ih =>
    obtain ⟨a, n⟩ := p
    by_cases ha : a = c
    · subst ha
      simp [alPut] at h
      rcases h with h | h
      · exact Or.inl h
      · exact Or.inr (List.mem_cons_of_mem _ h)
    · simp [alPut, ha] at h
      rcases h with h | h
      · exact Or.inr (by simp [h])
      · rcases ih h with h' | h'
        · exact Or.inl h'
        · exact Or.inr (List.mem_cons_of_mem _ h')

theorem alPut_ne_nil {T : Type} (c : Char) (x : TrieNode T) (l : TrieMap T) :
    alPut c x l ≠ [] := by
  cases l with
  | nil => simp [alPut]
  | cons p l =>
    obtain ⟨a, n⟩ := p
    by_cases ha : a = c <;> simp [alPut, ha]

theorem mem_alErase {T : Type} (c : Char) (l : TrieMap T) (q : Char × TrieNode T)
    (h : q ∈ alErase c l) : q ∈ l := by
  induction l with
  | nil => simp [alErase] at h
  | cons p l ih =>
    obtain ⟨a, n⟩ := p
    by_cases ha : a = c
    · subst ha
      simp [alErase] at h
      exact List.mem_cons_of_mem _ (ih h)
    · simp [alErase, ha] at h
      rcases h with h | h
      · simp [h]
      · exact List.mem_cons_of_mem _ (ih h)

theorem mem_alUpdate {T : Type} (c : Char) (f : TrieNode T → TrieNode T) (l : TrieMap T)
    (q : Char × TrieNode T) (h : q ∈ alUpdate c f l) :
    q ∈ l ∨ ∃ x, alGet l c = some x ∧ q = (c, f x) := by
  induction l with
  | nil => simp [alUpdate] at h
  | cons p l ih =>
    obtain ⟨a, n⟩ := p
    by_cases ha : a = c
    · subst ha
      simp [alUpdate] at h
      rcases h with h | h
      · exact Or.inr ⟨n, by simp, h⟩
      · exact Or.inl (List.mem_cons_of_mem _ h)
    · simp [alUpdate, ha] at h
      rcases h with h | h
      · exact Or.inl (by simp [h])
      · rcases ih h with h' | h'
        · exact Or.inl (List.mem_cons_of_mem _ h')
        · obtain ⟨x, hx, hq⟩ := h'
          refine Or.inr ⟨x, ?_, hq⟩
          simpa [ha] using hx

theorem keys_alUpdate {T : Type} (c : Char) (f : TrieNode T → TrieNode T) (l : TrieMap T) :
    (alUpdate c f l).map Prod.fst = l.map Prod.fst := by
  induction l with
  | nil => simp [alUpdate]
  | cons p l ih =>
    obtain ⟨a, n⟩ := p
    by_cases ha : a = c <;> simp [alUpdate, ha, ih]

theorem length_alUpdate {T : Type} (c : Char) (f : TrieNode T → TrieNode T) (l : TrieMap T) :
    (alUpdate c f l).length = l.length := by
  induction l with
  | nil => simp [alUpdate]
  | cons p l ih =>
    obtain ⟨a, n⟩ := p
    by_cases ha : a = c <;> simp [alUpdate, ha, ih]

theorem keys_alErase_sublist {T : Type} (c : Char) (l : TrieMap T) :
    ((alErase c l).map Prod.fst).Sublist (l.map Prod.fst) := by
  induction l with
  | nil => simp [alErase]
  | cons p l ih =>
    obtain ⟨a, n⟩ := p
    by_cases ha : a = c
    · simp only [alErase, if_pos ha, List.map_cons]
      exact ih.cons a
    · simp only [alErase, if_neg ha, List.map_cons]
      exact ih.cons₂ a

theorem keys_alPut {T : Type} (c : Char) (x : TrieNode T) (l : TrieMap T) :
    (alPut c x l).map Prod.fst = l.map Prod.fst ∨
      (alPut c x l).map Prod.fst = l.map Prod.fst ++ [c] ∧ alGet l c = none := by
  induction l with
  | nil => exact Or.inr (by simp [alPut])
  | cons p l ih =>
    obtain ⟨a, n⟩ := p
    by_cases ha : a = c
    · exact Or.inl (by simp [alPut, ha])
    · rcases ih with h | ⟨h, hg⟩
      · exact Or.inl (by simp [alPut, ha, h])
      · exact Or.inr (by simp [alPut, ha, h, hg])

theorem alErase_ne_nil {T : Type} (c : Char) (l : TrieMap T)
    (hnd : (l.map Prod.fst).Nodup) (hl : 1 < l.length) : alErase c l ≠ [] := by
  match l, hl with
  | (a₁, n₁) :: (a₂, n₂) :: l, _ =>
    simp at hnd
    by_cases h1 : a₁ = c
    · subst h1
      have h2 : ¬ a₂ = a₁ := fun h => hnd.1.1 h.symm
      simp [alErase, h2]
    · simp [alErase, h1]

/-- The character-walking loop of `Trie::get`.  The loop state is the current
child map and the `output` seen so far; a missing child short-circuits to
`None`, and consuming the whole key returns the last node's value.  This loop
is textually identical in `single_threaded_trie.rs` lines 24-37 and
`concurrent_trie.rs` lines 31-48 (the latter merely returns the reference
through a mapped read guard). -/
def getLoop {T : Type} : TrieMap T → List Char → Option T → Option T
  | _, [], out => out
  | m, c :: ks, _ =>
    match alGet m c with
    | none => none
    | some node => getLoop node.children ks node.value

/-- `Trie::get` of the single-threaded variant
(`single_threaded_trie.rs` lines 24-37). -/
def sget {T : Type} (t : TrieMap T) (key : List Char) : Option T :=
  getLoop t key none

/-- `Trie::get` of the concurrent variant (`concurrent_trie.rs` lines 31-48):
the same walk, executed under the shared read lock; the value seen through
the returned `ReadGuard` is this option. -/
def cget {T : Type} (t : TrieMap T) (key : List Char) : Option T :=
  getLoop t key none

/-- The top-level map viewed as the children of a pseudo root node with no
value.  Walking from it is exactly walking the `Trie` container. -/
def rootNode {T : Type} (t : TrieMap T) : TrieNode T :=
  .mk none t

/-- The node reached from `n` by following a path of characters. -/
def nodeAt {T : Type} : TrieNode T → List Char → Option (TrieNode T)
  | n, [] => some n
  | n, c :: p =>
    match alGet n.children c with
    | none => none
    | some ch => nodeAt ch p

/-- The value stored at the end of a path below `n` (`none` if the path is
missing or the final node is non-terminal). -/
def vAt {T : Type} (n : TrieNode T) (p : List Char) : Option T :=
  (nodeAt n p).bind TrieNode.value

@[simp] theorem nodeAt_nil {T : Type} (n : TrieNode T) : nodeAt n [] = some n := rfl

theorem nodeAt_append {T : Type} (n : TrieNode T) (p q : List Char) :
    nodeAt n (p ++ q) = (nodeAt n p).bind (fun m => nodeAt m q) := by
  induction p generalizing n with
  | nil => simp
  | cons c p ih =>
    simp only [List.cons_append, nodeAt]
    cases alGet n.children c with
    | none => simp
    | some ch => simp [ih]

theorem getLoop_eq_vAt {T : Type} (n : TrieNode T) (ks : List Char) :
    getLoop n.children ks n.value = vAt n ks := by
  induction ks generalizing n with
  | nil => simp [getLoop, vAt]
  | cons c ks ih =>
    simp only [getLoop, vAt, nodeAt]
    cases alGet n.children c with
    | none => simp
    | some ch => simpa [vAt] using ih ch

/-- `get` computes the value at the end of the key path below the pseudo
root; in particular `get` of the empty key is `none`. -/
theorem sget_eq_vAt {T : Type} (t : TrieMap T) (key : List Char) :
    sget t key = vAt (rootNode t) key := by
  cases key with
  | nil => simp [sget, getLoop, vAt, rootNode, TrieNode.value]
  | cons c ks =>
    have h : sget t (c :: ks) = getLoop (rootNode t).children (c :: ks) (rootNode t).value := rfl
    rw [h, getLoop_eq_vAt]

theorem vAt_newNode {T : Type} (p : List Char) : vAt (TrieNode.newNode : TrieNode T) p = none := by
  cases p with
  | nil => rfl
  | cons c ks => simp [vAt, nodeAt, TrieNode.newNode, TrieNode.children]

/-- `TrieNode::insert` (identical in `single_threaded_trie.rs` lines 158-181
and `concurrent_trie.rs` lines 168-191): walk the remaining characters,
creating a fresh node for every vacant child entry, then either fail with the
duplicate-key error (leaving everything as built) or set the final node's
value.  The returned node is the mutated `self`. -/
def TrieNode.insertGo {T : Type} : TrieNode T → List Char → T → Except String Unit × TrieNode T
  | n, [], v =>
    if n.isEnd then (.error "Duplicate keys are not allowed", n)
    else (.ok (), .mk (some v) n.children)
  | n, c :: ks, v =>
    let child := (alGet n.children c).getD TrieNode.newNode
    let r := TrieNode.insertGo child ks v
    (r.1, .mk n.value (alPut c r.2 n.children))

/-- `Trie::insert` of the single-threaded variant (`single_threaded_trie.rs`
lines 39-54): reject the empty key, then ensure a top-level node for the
first character and run `TrieNode::insert` on the rest of the key.  That is
exactly one unfolding of `insertGo` at the pseudo root. -/
def sinsert {T : Type} (t : TrieMap T) (key : List Char) (v : T) : Except String Unit × TrieMap T :=
  match key with
  | [] => (.error "Key can not be empty", t)
  | _ :: _ =>
    let r := TrieNode.insertGo (rootNode t) key v
    (r.1, r.2.children)

/-- `Trie::insert` of the concurrent variant (`concurrent_trie.rs` lines
50-66): the identical logic, executed under the exclusive write lock. -/
def cinsert {T : Type} (t : TrieMap T) (key : List Char) (v : T) : Except String Unit × TrieMap T :=
  match key with
  | [] => (.error "Key can not be empty", t)
  | _ :: _ =>
    let r := TrieNode.insertGo (rootNode t) key v
    (r.1, r.2.children)

theorem insertGo_value_cons {T : Type} (n : TrieNode T) (c : Char) (ks : List Char) (v : T) :
    (TrieNode.insertGo n (c :: ks) v).2.value = n.value := rfl

theorem insertGo_newNode_ok {T : Type} (ks : List Char) (v : T) :
    (TrieNode.insertGo (TrieNode.newNode : TrieNode T) ks v).1 = .ok () := by
  induction ks with
  | nil => rfl
  | cons c ks ih =>
    simp only [TrieNode.insertGo, TrieNode.newNode, TrieNode.children, alGet_nil, Option.getD]
    exact ih

/-- Result of `TrieNode::insert`: the duplicate-key error exactly when the
path already ends at a terminal node. -/
theorem insertGo_fst {T : Type} (n : TrieNode T) (ks : List Char) (v : T) :
    (TrieNode.insertGo n ks v).1 =
      if (vAt n ks).isSome then .error "Duplicate keys are not allowed" else .ok () := by
  induction ks generalizing n with
  | nil =>
    have hv : vAt n [] = n.value := by simp [vAt]
    rw [hv]
    cases hnv : n.value with
    | none => simp [TrieNode.insertGo, TrieNode.isEnd, hnv]
    | some x => simp [TrieNode.insertGo, TrieNode.isEnd, hnv]
  | cons c ks ih =>
    simp only [TrieNode.insertGo]
    cases hg : alGet n.children c with
    | none =>
      have h1 : vAt n (c :: ks) = none := by simp [vAt, nodeAt, hg]
      simp [hg, Option.getD, insertGo_newNode_ok, h1]
    | some ch =>
      have h1 : vAt n (c :: ks) = vAt ch ks := by simp [vAt, nodeAt, hg]
      simp [hg, Option.getD, ih, h1]

/-- A failed `TrieNode::insert` leaves the node unchanged (the duplicate-key
case finds every node already present, so the rebuilt node is the input). -/
theorem insertGo_err_state {T : Type} (n : TrieNode T) (ks : List Char) (v : T)
    (h : (TrieNode.insertGo n ks v).1 ≠ .ok ()) :
    (TrieNode.insertGo n ks v).2 = n := by
  induction ks generalizing n with
  | nil =>
    by_cases he : n.isEnd
    · simp [TrieNode.insertGo, he]
    · simp [TrieNode.insertGo, he] at h
  | cons c ks ih =>
    simp only [TrieNode.insertGo] at h ⊢
    cases hg : alGet n.children c with
    | none =>
      simp only [hg, Option.getD] at h
      exact absurd (insertGo_newNode_ok ks v) h
    | some ch =>
      simp only [hg, Option.getD] at h ⊢
      have h2 := ih ch h
      rw [h2, alPut_of_alGet_eq c ch n.children hg, TrieNode.eta]

/-- A successful `TrieNode::insert` stores `v` at the end of the key and
changes no other path's value. -/
theorem insertGo_vAt {T : Type} (n : TrieNode T) (ks : List Char) (v : T)
    (h : (TrieNode.insertGo n ks v).1 = .ok ()) (ks' : List Char) :
    vAt (TrieNode.insertGo n ks v).2 ks' = if ks' = ks then some v else vAt n ks' := by
  induction ks generalizing n ks' with
  | nil =>
    by_cases he : n.isEnd
    · simp [TrieNode.insertGo, he] at h
    · cases ks' with
      | nil => simp [TrieNode.insertGo, he, vAt]
      | cons c ks' => simp [TrieNode.insertGo, he, vAt, nodeAt]
  | cons c ks ih =>
    simp only [TrieNode.insertGo] at h ⊢
    cases hg : alGet n.children c with
    | none =>
      simp only [hg, Option.getD] at h ⊢
      cases ks' with
      | nil =>
        simp [vAt]
      | cons c' ks' =>
        by_cases hc : c' = c
        · subst hc
          have h3 : vAt (TrieNode.insertGo TrieNode.newNode ks v).2 ks' =
              if ks' = ks then some v else vAt (TrieNode.newNode : TrieNode T) ks' :=
            ih TrieNode.newNode (insertGo_newNode_ok ks v) ks'
          have h5 : vAt (TrieNode.mk n.value
              (alPut c' (TrieNode.insertGo TrieNode.newNode ks v).2 n.children)) (c' :: ks') =
              vAt (TrieNode.insertGo TrieNode.newNode ks v).2 ks' := by
            simp [vAt, nodeAt, TrieNode.children, alGet_alPut_self]
          by_cases hk : ks' = ks
          · subst hk
            rw [if_pos rfl, h5, h3, if_pos rfl]
          · have h4 : ¬ (c' :: ks' = c' :: ks) := by simp [hk]
            rw [if_neg h4, h5, h3, if_neg hk, vAt_newNode]
            simp [vAt, nodeAt, hg]
        · have h4 : ¬ (c' :: ks' = c :: ks) := by simp [hc]
          rw [if_neg h4]
          simp [vAt, nodeAt, TrieNode.children, alGet_alPut_ne c c' _ _ hc]
    | some ch =>
      simp only [hg, Option.getD] at h ⊢
      cases ks' with
      | nil =>
        simp [vAt]
      | cons c' ks' =>
        by_cases hc : c' = c
        · subst hc
          have h3 := ih ch h ks'
          have h5 : vAt (TrieNode.mk n.value
              (alPut c' (TrieNode.insertGo ch ks v).2 n.children)) (c' :: ks') =
              vAt (TrieNode.insertGo ch ks v).2 ks' := by
            simp [vAt, nodeAt, TrieNode.children, alGet_alPut_self]
          by_cases hk : ks' = ks
          · subst hk
            rw [if_pos rfl, h5, h3, if_pos rfl]
          · have h4 : ¬ (c' :: ks' = c' :: ks) := by simp [hk]
            rw [if_neg h4, h5, h3, if_neg hk]
            simp [vAt, nodeAt, hg]
        · have h4 : ¬ (c' :: ks' = c :: ks) := by simp [hc]
          rw [if_neg h4]
          simp [vAt, nodeAt, TrieNode.children, alGet_alPut_ne c c' _ _ hc]

/-- The keeper test of the upward loop in the single-threaded `Trie::remove`
(`single_threaded_trie.rs` line 104):
`parent_node.child_nodes.len() > 1 || parent_node.is_end()`. -/
def keeperP {T : Type} (n : TrieNode T) : Prop :=
  1 < n.children.length ∨ n.isEnd = true

instance keeperPDec {T : Type} (n : TrieNode T) : Decidable (keeperP n) :=
  inferInstanceAs (Decidable (1 < n.children.length ∨ n.isEnd = true))

/-- The downward walk of `Trie::remove` in the single-threaded variant
(`single_threaded_trie.rs` lines 63-78): follow the key one character at a
time, failing on a missing child; record, shallow to deep, every node
visited together with the character that led into it.  The recorded nodes
are exactly the ones whose parent pointers the upward phase will follow. -/
def walk {T : Type} : TrieNode T → List Char → Option (List (TrieNode T × Char))
  | _, [] => some []
  | n, c :: ks =>
    (alGet n.children c).bind fun ch => (walk ch ks).map fun ps => (ch, c) :: ps

/-- The deepest node of a recorded walk (`n` when the walk is empty). -/
def lastNode {T : Type} : TrieNode T → List (TrieNode T × Char) → TrieNode T
  | n, [] => n
  | _, (m, _) :: ps => lastNode m ps

/-- The upward pruning loop of the single-threaded `Trie::remove`
(`single_threaded_trie.rs` lines 93-110).  `rev` lists the proper ancestors
of the removed leaf deepest first — the parent pointer chain — each paired
with the character that led into it; the candidate is (depth of the map to
cut from, character to cut), starting at the leaf's parent.  The loop stops,
keeping the current candidate, at the first ancestor with more than one
child or with a value, and otherwise moves the cut one level up (a null
parent pointer is depth 0, the top-level map). -/
def pruneFind {T : Type} : List (TrieNode T × Char) → Nat × Char → Nat × Char
  | [], cand => cand
  | (parent, pc) :: rest, cand =>
    if keeperP parent then cand else pruneFind rest (rest.length, pc)

/-- Remove the child binding `c` of the node at path `p` below `n` (for
`p = []` this is the final `HashMap::remove` on the top-level map when the
surviving parent pointer is null; otherwise on that parent's child map). -/
def eraseAt {T : Type} : TrieNode T → List Char → Char → TrieNode T
  | n, [], c => .mk n.value (alErase c n.children)
  | n, a :: p, c => .mk n.value (alUpdate a (fun ch => eraseAt ch p c) n.children)

/-- Clear the value of the node at the end of path `p`:
`current_node.set_value(None)`. -/
def clearAt {T : Type} : TrieNode T → List Char → TrieNode T
  | n, [] => .mk none n.children
  | n, a :: p => .mk n.value (alUpdate a (fun ch => clearAt ch p) n.children)

/-- `Trie::remove` of the single-threaded variant (`single_threaded_trie.rs`
lines 56-123): reject the empty key; walk down the key (failing with the
not-found error on a missing child); fail if the final node is not terminal;
if it still has children only clear its value; otherwise chase parent
pointers upward with `pruneFind` and remove one child binding at the stop
position (the whole dead chain hangs below it).  The branch for an empty
reversed walk cannot be reached (the key is non-empty) and mirrors the
source's reliance on that fact. -/
def sremove {T : Type} (t : TrieMap T) (key : List Char) : Except String Unit × TrieMap T :=
  match key with
  | [] => (.error "Key can not be empty", t)
  | _ :: _ =>
    match walk (rootNode t) key with
    | none => (.error "No corresponding value", t)
    | some ps =>
      match ps.reverse with
      | [] => (.error "No corresponding value", t)
      | (nN, cN) :: ancRev =>
        if nN.isEnd then
          if nN.children.isEmpty then
            let dc := pruneFind ancRev (ancRev.length, cN)
            (.ok (), (eraseAt (rootNode t) (key.take dc.1) dc.2).children)
          else (.ok (), (clearAt (rootNode t) key).children)
        else (.error "No corresponding value", t)

/-- The candidate-reset test of the concurrent `Trie::remove` downward loop
(`concurrent_trie.rs` lines 96-98):
`(is_end() && !child_nodes.is_empty()) || child_nodes.len() > 1`. -/
def cKeepP {T : Type} (n : TrieNode T) : Prop :=
  (n.isEnd = true ∧ n.children.isEmpty = false) ∨ 1 < n.children.length

instance cKeepPDec {T : Type} (n : TrieNode T) : Decidable (cKeepP n) :=
  inferInstanceAs (Decidable (_ ∧ _ ∨ 1 < n.children.length))

/-- The downward loop of the concurrent `Trie::remove` (`concurrent_trie.rs`
lines 89-103): walk the remaining key while maintaining
`parent_node_ptr_and_key` as an optional (depth of the parent node, step
character); it is reset to `none` at every node passing the `cKeepP` test
and re-established at the next node when currently `none`.  `depth` is the
depth of the node the loop stands on, so the stored parent depth is the
depth before stepping. -/
def cDown {T : Type} : TrieNode T → List Char → Option (Nat × Char) → Nat →
    Option (TrieNode T × Option (Nat × Char))
  | n, [], cand, _ => some (n, cand)
  | n, c :: ks, cand, depth =>
    (alGet n.children c).bind fun ch =>
      cDown ch ks
        (if cKeepP ch then none else if cand.isNone then some (depth, c) else cand)
        (depth + 1)

/-- `Trie::remove` of the concurrent variant (`concurrent_trie.rs` lines
68-133): unlike the single-threaded variant it precomputes the cut position
during the downward walk (`cDown`), starting from the top-level entry of the
first character with no check of the top-level node itself, and never walks
back up.  After the walk: missing path or non-terminal final node fail with
the not-found error; a final node with children only has its value cleared;
otherwise the precomputed binding is removed (`none` means nothing to cut). -/
def cremove {T : Type} (t : TrieMap T) (key : List Char) : Except String Unit × TrieMap T :=
  match key with
  | [] => (.error "Key can not be empty", t)
  | c1 :: rest =>
    match alGet t c1 with
    | none => (.error "No corresponding value", t)
    | some n1 =>
      match cDown n1 rest (some (0, c1)) 1 with
      | none => (.error "No corresponding value", t)
      | some (nN, cand) =>
        if nN.isEnd then
          if nN.children.isEmpty then
            match cand with
            | none => (.ok (), t)
            | some (d, c) => (.ok (), (eraseAt (rootNode t) (key.take d) c).children)
          else (.ok (), (clearAt (rootNode t) key).children)
        else (.error "No corresponding value", t)

@[simp] theorem lastNode_nil {T : Type} (n : TrieNode T) : lastNode n [] = n := rfl

@[simp] theorem lastNode_cons {T : Type} (n m : TrieNode T) (c : Char)
    (ps : List (TrieNode T × Char)) : lastNode n ((m, c) :: ps) = lastNode m ps := rfl

theorem walk_cons_inv {T : Type} (n : TrieNode T) (c : Char) (ks : List Char)
    (p : TrieNode T × Char) (ps : List (TrieNode T × Char))
    (h : walk n (c :: ks) = some (p :: ps)) :
    p.2 = c ∧ alGet n.children c = some p.1 ∧ walk p.1 ks = some ps := by
  simp only [walk] at h
  cases hg : alGet n.children c with
  | none => simp [hg] at h
  | some ch =>
    cases hw : walk ch ks with
    | none => simp [hg, hw] at h
    | some ps' =>
      simp [hg, hw] at h
      obtain ⟨h1, h2⟩ := h
      subst h1
      subst h2
      exact ⟨rfl, rfl, hw⟩

theorem walk_chars {T : Type} (n : TrieNode T) (ks : List Char)
    (ps : List (TrieNode T × Char)) (h : walk n ks = some ps) :
    ps.map Prod.snd = ks := by
  induction ks generalizing n ps with
  | nil => simp [walk] at h; simp [h]
  | cons c ks ih =>
    cases ps with
    | nil =>
      simp only [walk] at h
      cases hg : alGet n.children c with
      | none => simp [hg] at h
      | some ch =>
        cases hw : walk ch ks with
        | none => simp [hg, hw] at h
        | some ps' => simp [hg, hw] at h
    | cons p ps =>
      obtain ⟨h1, h2, h3⟩ := walk_cons_inv n c ks p ps h
      simp [h1, ih _ _ h3]

theorem walk_nodeAt {T : Type} (n : TrieNode T) (ks : List Char)
    (ps : List (TrieNode T × Char)) (h : walk n ks = some ps) :
    nodeAt n ks = some (lastNode n ps) := by
  induction ks generalizing n ps with
  | nil => simp [walk] at h; simp [h]
  | cons c ks ih =>
    cases ps with
    | nil =>
      simp only [walk] at h
      cases hg : alGet n.children c with
      | none => simp [hg] at h
      | some ch =>
        cases hw : walk ch ks with
        | none => simp [hg, hw] at h
        | some ps' => simp [hg, hw] at h
    | cons p ps =>
      obtain ⟨h1, h2, h3⟩ := walk_cons_inv n c ks p ps h
      obtain ⟨m, d⟩ := p
      simp only [nodeAt, h2]
      simpa using ih _ _ h3

theorem walk_isNone_iff {T : Type} (n : TrieNode T) (ks : List Char) :
    walk n ks = none ↔ nodeAt n ks = none := by
  induction ks generalizing n with
  | nil => simp [walk]
  | cons c ks ih =>
    simp only [walk, nodeAt]
    cases hg : alGet n.children c with
    | none => simp
    | some ch =>
      simp only [Option.some_bind]
      cases hw : walk ch ks with
      | none =>
        have h2 := (ih ch).mp hw
        simp [h2]
      | some ps =>
        have h2 := walk_nodeAt ch ks ps hw
        simp [h2]

theorem walk_split {T : Type} (ps₁ : List (TrieNode T × Char)) (n : TrieNode T)
    (ks : List Char) (ps₂ : List (TrieNode T × Char))
    (h : walk n ks = some (ps₁ ++ ps₂)) :
    ks = ps₁.map Prod.snd ++ ps₂.map Prod.snd ∧
      walk n (ps₁.map Prod.snd) = some ps₁ ∧
      walk (lastNode n ps₁) (ps₂.map Prod.snd) = some ps₂ := by
  induction ps₁ generalizing n ks with
  | nil =>
    refine ⟨by simpa using (walk_chars n ks ps₂ h).symm, rfl, ?_⟩
    simpa [walk_chars n ks ps₂ h] using h
  | cons p ps₁ ih =>
    cases ks with
    | nil => simp [walk] at h
    | cons c ks =>
      obtain ⟨h1, h2, h3⟩ := walk_cons_inv n c ks p (ps₁ ++ ps₂) h
      obtain ⟨hk, hw1, hw2⟩ := ih p.1 ks h3
      obtain ⟨m, d⟩ := p
      simp only at h1
      subst h1
      refine ⟨by simpa using hk, ?_, by simpa using hw2⟩
      simp [walk, h2, hw1]

theorem vAt_nil {T : Type} (n : TrieNode T) : vAt n [] = n.value := by simp [vAt]

theorem nodeAt_cons {T : Type} (n : TrieNode T) (c : Char) (p : List Char) :
    nodeAt n (c :: p) = (alGet n.children c).bind fun ch => nodeAt ch p := by
  cases hg : alGet n.children c <;> simp [nodeAt, hg]

theorem vAt_cons {T : Type} (n : TrieNode T) (c : Char) (p : List Char) :
    vAt n (c :: p) = (alGet n.children c).bind fun ch => vAt ch p := by
  cases hg : alGet n.children c <;> simp [vAt, nodeAt, hg]

theorem lastNode_append {T : Type} (l : List (TrieNode T × Char)) (n m : TrieNode T) (c : Char) :
    lastNode n (l ++ [(m, c)]) = m := by
  induction l generalizing n with
  | nil => rfl
  | cons q l ih =>
    obtain ⟨q1, q2⟩ := q
    simpa using ih q1

/-- The character component of the first recorded pair, with a default. -/
def headCh {T : Type} : List (TrieNode T × Char) → Char → Char
  | [], c => c
  | (_, a) :: _, _ => a

/-- What the upward loop computes, stated over the forward ancestor list `A`
(shallow to deep, each node paired with the character leading into it; the
loop consumes `A.reverse`): `A` splits as kept ancestors `B` followed by a
dead tail `C` of non-keepers; the cut happens in the child map of the last
kept ancestor (the top-level map when `B = []`), at the first character of
the dead tail (the removed leaf's own character when the tail is empty). -/
theorem pruneFind_spec {T : Type} (A : List (TrieNode T × Char)) (c : Char) :
    ∃ B C, A = B ++ C ∧
      pruneFind A.reverse (A.length, c) = (B.length, headCh C c) ∧
      (∀ x ∈ C, ¬ keeperP x.1) ∧
      (B = [] ∨ ∃ y, B.getLast? = some y ∧ keeperP y.1) := by
  induction A using List.reverseRecOn generalizing c with
  | nil => exact ⟨[], [], rfl, rfl, by simp, Or.inl rfl⟩
  | append_singleton A' x ih =>
    obtain ⟨p, pc⟩ := x
    by_cases hk : keeperP p
    · refine ⟨A' ++ [(p, pc)], [], by simp, ?_, by simp, Or.inr ⟨(p, pc), by simp, hk⟩⟩
      simp [pruneFind, hk, headCh]
    · obtain ⟨B, C, hA, hres, hC, hB⟩ := ih pc
      refine ⟨B, C ++ [(p, pc)], by simp [hA], ?_, ?_, hB⟩
      · have h1 : (A' ++ [(p, pc)]).reverse = (p, pc) :: A'.reverse := by simp
        have h2 : pruneFind ((p, pc) :: A'.reverse) ((A' ++ [(p, pc)]).length, c)
            = pruneFind A'.reverse (A'.reverse.length, pc) := by
          simp [pruneFind, hk]
        rw [h1, h2, List.length_reverse, hres]
        cases C with
        | nil => simp [headCh]
        | cons y C =>
          obtain ⟨y1, y2⟩ := y
          simp [headCh]
      · intro x hx
        rcases List.mem_append.mp hx with h | h
        · exact hC x h
        · simp at h
          rw [h]
          exact hk

theorem eraseAt_value {T : Type} (n : TrieNode T) (p : List Char) (c : Char) :
    (eraseAt n p c).value = n.value := by
  cases p <;> rfl

theorem clearAt_value_cons {T : Type} (n : TrieNode T) (a : Char) (p : List Char) :
    (clearAt n (a :: p)).value = n.value := rfl

/-- Effect of removing the child binding `c` of the node at path `p` on every
lookup: keys extending `p ++ [c]` become absent, all others are untouched. -/
theorem vAt_eraseAt {T : Type} (p : List Char) (n : TrieNode T) (c : Char) (k' : List Char)
    (hp : nodeAt n p ≠ none) :
    vAt (eraseAt n p c) k' = if (p ++ [c]) <+: k' then none else vAt n k' := by
  induction p generalizing n k' with
  | nil =>
    cases k' with
    | nil => simp [eraseAt, vAt]
    | cons b k' =>
      by_cases hb : c = b
      · subst hb
        simp [eraseAt, vAt_cons, alGet_alErase_self, List.cons_prefix_cons]
      · have hb2 : b ≠ c := Ne.symm hb
        simp [eraseAt, vAt_cons, alGet_alErase_ne c b _ hb2, List.cons_prefix_cons, hb]
  | cons a p ih =>
    have hg : ∃ ch, alGet n.children a = some ch ∧ nodeAt ch p ≠ none := by
      rw [nodeAt_cons] at hp
      cases hga : alGet n.children a with
      | none => rw [hga] at hp; simp at hp
      | some ch =>
        rw [hga] at hp
        simp at hp
        exact ⟨ch, rfl, hp⟩
    obtain ⟨ch, hga, hch⟩ := hg
    cases k' with
    | nil => simp [eraseAt, vAt]
    | cons b k' =>
      by_cases hb : a = b
      · subst hb
        have h1 : alGet (alUpdate a (fun x => eraseAt x p c) n.children) a
            = some (eraseAt ch p c) := alGet_alUpdate_self a _ _ ch hga
        simp only [eraseAt, vAt_cons, TrieNode.children_mk, h1, Option.some_bind,
          List.cons_append, List.cons_prefix_cons, true_and, hga]
        exact ih ch k' hch
      · have hb2 : b ≠ a := Ne.symm hb
        simp [eraseAt, vAt_cons, alGet_alUpdate_ne a b _ _ hb2, List.cons_prefix_cons, hb]

/-- Effect of clearing the value at path `p` on every lookup: only the key
`p` itself changes, to absent. -/
theorem vAt_clearAt {T : Type} (p : List Char) (n : TrieNode T) (k' : List Char)
    (hp : nodeAt n p ≠ none) :
    vAt (clearAt n p) k' = if k' = p then none else vAt n k' := by
  induction p generalizing n k' with
  | nil =>
    cases k' with
    | nil => simp [clearAt, vAt]
    | cons b k' => simp [clearAt, vAt_cons]
  | cons a p ih =>
    have hg : ∃ ch, alGet n.children a = some ch ∧ nodeAt ch p ≠ none := by
      rw [nodeAt_cons] at hp
      cases hga : alGet n.children a with
      | none => rw [hga] at hp; simp at hp
      | some ch =>
        rw [hga] at hp
        simp at hp
        exact ⟨ch, rfl, hp⟩
    obtain ⟨ch, hga, hch⟩ := hg
    cases k' with
    | nil => simp [clearAt, vAt]
    | cons b k' =>
      by_cases hb : b = a
      · subst hb
        have h1 : alGet (alUpdate b (fun x => clearAt x p) n.children) b
            = some (clearAt ch p) := alGet_alUpdate_self b _ _ ch hga
        simp only [clearAt, vAt_cons, TrieNode.children_mk, h1, Option.some_bind,
          List.cons.injEq, true_and, hga]
        exact ih ch k' hch
      · simp [clearAt, vAt_cons, alGet_alUpdate_ne a b _ _ hb, hb]

/-- Clearing the value at path `p` keeps the node there, with its subtree. -/
theorem nodeAt_clearAt {T : Type} (p : List Char) (n np : TrieNode T)
    (hp : nodeAt n p = some np) :
    nodeAt (clearAt n p) p = some (TrieNode.mk none np.children) := by
  induction p generalizing n with
  | nil =>
    simp at hp
    subst hp
    simp [clearAt]
  | cons a p ih =>
    rw [nodeAt_cons] at hp
    cases hga : alGet n.children a with
    | none => rw [hga] at hp; simp at hp
    | some ch =>
      rw [hga] at hp
      simp at hp
      have h1 : alGet (alUpdate a (fun x => clearAt x p) n.children) a
          = some (clearAt ch p) := alGet_alUpdate_self a _ _ ch hga
      rw [clearAt, nodeAt_cons]
      simp only [TrieNode.children_mk, h1, Option.some_bind]
      exact ih ch hp

theorem not_keeperP_value {T : Type} (n : TrieNode T) (h : ¬ keeperP n) : n.value = none := by
  rw [keeperP] at h
  push_neg at h
  have h2 := h.2
  simp [TrieNode.isEnd] at h2
  exact h2

theorem not_keeperP_length {T : Type} (n : TrieNode T) (h : ¬ keeperP n) :
    n.children.length ≤ 1 := by
  rw [keeperP] at h
  push_neg at h
  omega

theorem alGet_singleton {T : Type} (l : TrieMap T) (c : Char) (x : TrieNode T)
    (h : alGet l c = some x) (hl : l.length ≤ 1) : l = [(c, x)] := by
  match l with
  | [] => simp at h
  | [(a, n)] =>
    by_cases ha : a = c
    · subst ha
      simp at h
      simp [h]
    · simp [ha] at h
  | (a₁, n₁) :: (a₂, n₂) :: l => simp at hl

/-- A maximal dead chain: every node along `s` below the chain's head (and
the head itself while the chain continues) has no value and at most one
child, and the final node is childless.  This is what the pruning cut
removes in one `HashMap::remove`. -/
def chainOK {T : Type} : List Char → TrieNode T → Prop
  | [], nd => nd.children = []
  | c :: s, nd => ¬ keeperP nd ∧ ∃ ch, alGet nd.children c = some ch ∧ chainOK s ch

/-- Inside a dead chain the only stored value is at the end of the chain's own
path: every other relative path yields nothing. -/
theorem chainOK_vAt {T : Type} (s : List Char) (nd : TrieNode T) (h : chainOK s nd)
    (s' : List Char) (hne : s' ≠ s) : vAt nd s' = none := by
  induction s generalizing nd s' with
  | nil =>
    rw [chainOK] at h
    cases s' with
    | nil => simp at hne
    | cons b s' => simp [vAt_cons, h]
  | cons c s ih =>
    obtain ⟨hk, ch, hg, hch⟩ := h
    cases s' with
    | nil => simp [vAt_nil, not_keeperP_value nd hk]
    | cons b s' =>
      by_cases hb : b = c
      · subst hb
        have hs : s' ≠ s := by intro hx; exact hne (by rw [hx])
        simp [vAt_cons, hg, ih ch hch s' hs]
      · have h1 : nd.children = [(c, ch)] :=
          alGet_singleton nd.children c ch hg (not_keeperP_length nd hk)
        have hb2 : ¬ c = b := fun hx => hb hx.symm
        simp [vAt_cons, h1, hb2]

/-- A recorded walk whose proper prefix consists of non-keepers and whose
final node is childless is a dead chain hanging off the starting node. -/
theorem walk_chainOK {T : Type} (ks : List Char) (c : Char) (nd : TrieNode T)
    (ps : List (TrieNode T × Char)) (hw : walk nd (c :: ks) = some ps)
    (hnk : ∀ x ∈ ps.dropLast, ¬ keeperP x.1)
    (hlast : ∀ y ∈ ps.getLast?, y.1.children = []) :
    ∃ ch, alGet nd.children c = some ch ∧ chainOK ks ch := by
  induction ks generalizing nd c ps with
  | nil =>
    cases ps with
    | nil =>
      have h1 := walk_chars _ _ _ hw
      simp at h1
    | cons p ps' =>
      obtain ⟨h1, h2, h3⟩ := walk_cons_inv nd c [] p ps' hw
      have h4 : ps' = [] := by
        have h5 := walk_chars _ _ _ h3
        simpa using h5
      subst h4
      refine ⟨p.1, h2, ?_⟩
      rw [chainOK]
      exact hlast p (by simp)
  | cons c2 ks ih =>
    cases ps with
    | nil =>
      have h1 := walk_chars _ _ _ hw
      simp at h1
    | cons p ps' =>
      obtain ⟨h1, h2, h3⟩ := walk_cons_inv nd c (c2 :: ks) p ps' hw
      have hne : ps' ≠ [] := by
        intro hx
        rw [hx] at h3
        have h5 := walk_chars _ _ _ h3
        simp at h5
      have hp : ¬ keeperP p.1 := by
        apply hnk p
        cases ps' with
        | nil => exact absurd rfl hne
        | cons q ps'' => simp
      have hnk' : ∀ x ∈ ps'.dropLast, ¬ keeperP x.1 := by
        intro x hx
        apply hnk x
        cases ps' with
        | nil => exact absurd rfl hne
        | cons q ps'' =>
          simp only [List.dropLast_cons₂, List.mem_cons]
          exact Or.inr (by simpa using hx)
      have hlast' : ∀ y ∈ ps'.getLast?, y.1.children = [] := by
        intro y hy
        apply hlast y
        cases ps' with
        | nil => exact absurd rfl hne
        | cons q ps'' => simpa using hy
      obtain ⟨ch2, hg2, hch2⟩ := ih c2 p.1 ps' h3 hnk' hlast'
      exact ⟨p.1, h2, hp, ch2, hg2, hch2⟩

theorem lastNode_eq_getLast {T : Type} (B : List (TrieNode T × Char)) (n : TrieNode T)
    (y : TrieNode T × Char) (h : B.getLast? = some y) : lastNode n B = y.1 := by
  rcases List.eq_nil_or_concat B with hB | ⟨B', z, hB⟩
  · rw [hB] at h; simp at h
  · subst hB
    obtain ⟨z1, z2⟩ := z
    rw [List.concat_eq_append] at h ⊢
    rw [lastNode_append]
    simp at h
    subst h
    rfl

/-- Complete case analysis of the single-threaded `Trie::remove`: it either
fails leaving the map untouched, or clears the value of a terminal node that
still has children, or removes one child binding under the deepest kept
ancestor, below which a dead chain carrying only the removed key hangs. -/
theorem sremove_cases {T : Type} (t : TrieMap T) (key : List Char) :
    (sremove t key =
        (.error (if key = [] then "Key can not be empty" else "No corresponding value"), t) ∧
      vAt (rootNode t) key = none) ∨
    (∃ nN, key ≠ [] ∧ nodeAt (rootNode t) key = some nN ∧ nN.isEnd = true ∧
      nN.children ≠ [] ∧
      sremove t key = (.ok (), (clearAt (rootNode t) key).children)) ∨
    (∃ d cut q' nd ch, key = key.take d ++ cut :: q' ∧
      nodeAt (rootNode t) (key.take d) = some nd ∧
      (key.take d ≠ [] → keeperP nd) ∧
      alGet nd.children cut = some ch ∧ chainOK q' ch ∧
      (∃ nL, nodeAt (rootNode t) key = some nL ∧ nL.children = []) ∧
      vAt (rootNode t) key ≠ none ∧
      sremove t key = (.ok (), (eraseAt (rootNode t) (key.take d) cut).children)) := by
  cases hkey : key with
  | nil => exact Or.inl ⟨by simp [sremove], by simp [vAt, rootNode]⟩
  | cons c1 ks =>
    rw [← hkey]
    have hkne : key ≠ [] := by rw [hkey]; simp
    cases hw : walk (rootNode t) key with
    | none =>
      have hnone : nodeAt (rootNode t) key = none := (walk_isNone_iff _ _).mp hw
      refine Or.inl ⟨?_, by simp [vAt, hnone]⟩
      rw [hkey] at hw ⊢
      simp [sremove, hw]
    | some ps =>
      cases hrev : ps.reverse with
      | nil =>
        exfalso
        have hps : ps = [] := by simpa using congrArg List.reverse hrev
        have h1 := walk_chars _ _ _ hw
        rw [hps, hkey] at h1
        simp at h1
      | cons pN ancRev =>
        obtain ⟨nN, cN⟩ := pN
        have hps : ps = ancRev.reverse ++ [(nN, cN)] := by
          have h1 : ps.reverse.reverse = ((nN, cN) :: ancRev).reverse := by rw [hrev]
          simpa using h1
        have hlastN : lastNode (rootNode t) ps = nN := by
          rw [hps]; exact lastNode_append _ _ _ _
        have hnodeAt : nodeAt (rootNode t) key = some nN := by
          rw [walk_nodeAt _ _ _ hw, hlastN]
        by_cases hend : nN.isEnd
        · by_cases hemp : nN.children.isEmpty
          · -- prune branch
            have hchl : nN.children = [] := by simpa using hemp
            obtain ⟨B, C, hA, hres, hC, hB⟩ := pruneFind_spec ancRev.reverse cN
            rw [List.reverse_reverse, List.length_reverse] at hres
            have hps2 : ps = B ++ (C ++ [(nN, cN)]) := by
              rw [hps, hA, List.append_assoc]
            obtain ⟨hk, hw1, hw2⟩ := walk_split B (rootNode t) key (C ++ [(nN, cN)])
              (by rw [← hps2]; exact hw)
            have hd : key.take B.length = B.map Prod.snd := by
              rw [hk]
              have h2 : B.length = (B.map Prod.snd).length := by simp
              rw [h2, List.take_left]
            set nd := lastNode (rootNode t) B with hnd
            have hnodeAtd : nodeAt (rootNode t) (key.take B.length) = some nd := by
              rw [hd]; exact walk_nodeAt _ _ _ hw1
            have hkeep : key.take B.length ≠ [] → keeperP nd := by
              intro hne
              have hBne : B ≠ [] := by
                intro hx
                apply hne
                rw [hx]
                simp
              rcases hB with hB | ⟨y, hy, hky⟩
              · exact absurd hB hBne
              · rw [hnd, lastNode_eq_getLast B _ y hy]
                exact hky
            -- the dead tail as cut :: q'
            have htail : ∃ cut q', (C ++ [(nN, cN)]).map Prod.snd = cut :: q' ∧
                cut = headCh C cN := by
              cases C with
              | nil => exact ⟨cN, [], by simp, rfl⟩
              | cons y C' =>
                obtain ⟨y1, y2⟩ := y
                exact ⟨y2, C'.map Prod.snd ++ [cN], by simp, rfl⟩
            obtain ⟨cut, q', htl, hcut⟩ := htail
            have hchain : ∃ ch, alGet nd.children cut = some ch ∧ chainOK q' ch := by
              apply walk_chainOK q' cut nd (C ++ [(nN, cN)])
              · rw [← htl]; exact hw2
              · intro x hx
                rw [List.dropLast_concat] at hx
                exact hC x hx
              · intro y hy
                simp at hy
                rw [← hy]
                exact hchl
            obtain ⟨ch, hg, hchOK⟩ := hchain
            have hvsome : vAt (rootNode t) key ≠ none := by
              simp [vAt, hnodeAt]
              intro hx
              rw [TrieNode.isEnd, hx] at hend
              simp at hend
            refine Or.inr (Or.inr ⟨B.length, cut, q', nd, ch, ?_, hnodeAtd, hkeep, hg, hchOK,
              ⟨nN, hnodeAt, hchl⟩, hvsome, ?_⟩)
            · rw [hd, hk, htl]
            · rw [hkey] at hw ⊢
              simp only [sremove, hw, hrev]
              rw [hres, ← hcut]
              simp [hend, hemp]
          · -- clear branch
            refine Or.inr (Or.inl ⟨nN, hkne, hnodeAt, hend, by simpa using hemp, ?_⟩)
            rw [hkey] at hw ⊢
            simp [sremove, hw, hrev, hend, hemp]
        · have hvn : nN.value = none := by
            simp [TrieNode.isEnd] at hend
            exact hend
          refine Or.inl ⟨?_, by simp [vAt, hnodeAt, hvn]⟩
          rw [hkey] at hw ⊢
          simp [sremove, hw, hrev, hend]

theorem rootNode_children {T : Type} (n : TrieNode T) (h : n.value = none) :
    rootNode n.children = n := by
  rw [rootNode, ← h, TrieNode.eta]

theorem vAt_append {T : Type} (n : TrieNode T) (p q : List Char) :
    vAt n (p ++ q) = (nodeAt n p).bind fun m => vAt m q := by
  rw [vAt, nodeAt_append]
  cases nodeAt n p <;> simp [vAt]

/-- Frame property of the single-threaded `Trie::remove`, whether it succeeds
or fails: afterwards the removed key reads as absent and every other key
reads exactly as before. -/
theorem sremove_vAt {T : Type} (t : TrieMap T) (key k' : List Char) :
    vAt (rootNode ((sremove t key).2)) k' =
      if k' = key then none else vAt (rootNode t) k' := by
  rcases sremove_cases t key with ⟨hs, hv⟩ | ⟨nN, hkne, hnode, hend, hch, hs⟩ |
    ⟨d, cut, q', nd, ch, hkk, hnode, hkeep, hg, hchOK, hleaf, hvs, hs⟩
  · rw [hs]
    by_cases hk : k' = key
    · subst hk; simp [hv]
    · simp [hk]
  · rw [hs]
    have hval : (clearAt (rootNode t) key).value = none := by
      cases hkey : key with
      | nil => exact absurd hkey hkne
      | cons a p => exact clearAt_value_cons _ _ _
    simp only
    rw [rootNode_children _ hval]
    exact vAt_clearAt key (rootNode t) k' (by rw [hnode]; simp)
  · rw [hs]
    have hval : (eraseAt (rootNode t) (key.take d) cut).value = none :=
      eraseAt_value _ _ _
    simp only
    rw [rootNode_children _ hval]
    rw [vAt_eraseAt (key.take d) (rootNode t) cut k' (by rw [hnode]; simp)]
    have hpreKey : (key.take d ++ [cut]) <+: key := by
      refine ⟨q', ?_⟩
      rw [List.append_assoc]
      exact hkk.symm
    by_cases hpre : (key.take d ++ [cut]) <+: k'
    · rw [if_pos hpre]
      by_cases hk : k' = key
      · rw [if_pos hk]
      · rw [if_neg hk]
        obtain ⟨r, hr⟩ := hpre
        have h1 : vAt (rootNode t) k' = vAt ch r := by
          rw [← hr, List.append_assoc, vAt_append, hnode]
          simp only [Option.some_bind]
          rw [List.singleton_append, vAt_cons, hg]
          simp
        have hrq : r ≠ q' := by
          intro hx
          apply hk
          rw [← hr, hx, List.append_assoc, List.singleton_append]
          exact hkk.symm
        rw [h1, chainOK_vAt q' ch hchOK r hrq]
    · rw [if_neg hpre]
      have hk : k' ≠ key := by
        intro hx
        rw [hx] at hpre
        exact hpre hpreKey
      rw [if_neg hk]

/-- The removed key itself reads as absent afterwards (whether or not the
call succeeded), and failures leave the map untouched. -/
theorem sremove_fst {T : Type} (t : TrieMap T) (key : List Char) :
    (sremove t key).1 =
      if key = [] then .error "Key can not be empty"
      else if (vAt (rootNode t) key).isSome then .ok ()
      else .error "No corresponding value" := by
  rcases sremove_cases t key with ⟨hs, hv⟩ | ⟨nN, hkne, hnode, hend, hch, hs⟩ |
    ⟨d, cut, q', nd, ch, hkk, hnode, hkeep, hg, hchOK, hleaf, hvs, hs⟩
  · rw [hs]
    by_cases hk : key = []
    · simp [hk]
    · simp [hk, hv]
  · have hvsome : (vAt (rootNode t) key).isSome = true := by
      rw [TrieNode.isEnd] at hend
      simp [vAt, hnode, hend]
    rw [hs]
    simp [hkne, hvsome]
  · have hkne : key ≠ [] := by
      intro hx
      rw [hx] at hkk
      simp at hkk
    have hvsome : (vAt (rootNode t) key).isSome = true := by
      cases hvx : vAt (rootNode t) key with
      | none => exact absurd hvx hvs
      | some x => rfl
    rw [hs]
    simp [hkne, hvsome]

theorem sremove_err_state {T : Type} (t : TrieMap T) (key : List Char) (e : String)
    (h : (sremove t key).1 = .error e) : (sremove t key).2 = t := by
  rcases sremove_cases t key with ⟨hs, hv⟩ | ⟨nN, hkne, hnode, hend, hch, hs⟩ |
    ⟨d, cut, q', nd, ch, hkk, hnode, hkeep, hg, hchOK, hleaf, hvs, hs⟩
  · rw [hs]
  · rw [hs] at h; simp at h
  · rw [hs] at h; simp at h

theorem take_drop_of_drop_cons {α : Type} (k : List α) (d : Nat) (c : α) (r : List α)
    (h : k.drop d = c :: r) : k.take (d + 1) = k.take d ++ [c] ∧ k.drop (d + 1) = r := by
  induction k generalizing d with
  | nil => simp at h
  | cons a k ih =>
    cases d with
    | zero =>
      simp at h
      obtain ⟨h1, h2⟩ := h
      subst h1
      subst h2
      simp
    | succ d =>
      simp only [List.drop_succ_cons] at h
      obtain ⟨h1, h2⟩ := ih d h
      constructor
      · simp only [List.take_succ_cons, h1, List.cons_append]
      · simpa using h2

theorem take_of_drop_nil {α : Type} (k : List α) (d : Nat) (h : k.drop d = []) :
    k.take d = k := by
  induction k generalizing d with
  | nil => simp
  | cons a k ih =>
    cases d with
    | zero => simp at h
    | succ d =>
      simp only [List.drop_succ_cons] at h
      simp [List.take_succ_cons, ih d h]

theorem cDown_node {T : Type} (ks : List Char) (nd : TrieNode T) (cand : Option (Nat × Char))
    (depth : Nat) (nN : TrieNode T) (cand2 : Option (Nat × Char))
    (h : cDown nd ks cand depth = some (nN, cand2)) : nodeAt nd ks = some nN := by
  induction ks generalizing nd cand depth with
  | nil =>
    simp [cDown] at h
    simp [h.1]
  | cons c ks ih =>
    simp only [cDown] at h
    cases hg : alGet nd.children c with
    | none => simp [hg] at h
    | some ch =>
      simp only [hg, Option.some_bind] at h
      rw [nodeAt_cons, hg, Option.some_bind]
      exact ih ch _ _ h

theorem cDown_isNone_iff {T : Type} (ks : List Char) (nd : TrieNode T)
    (cand : Option (Nat × Char)) (depth : Nat) :
    cDown nd ks cand depth = none ↔ nodeAt nd ks = none := by
  induction ks generalizing nd cand depth with
  | nil => simp [cDown]
  | cons c ks ih =>
    simp only [cDown, nodeAt_cons]
    cases hg : alGet nd.children c with
    | none => simp
    | some ch => simp [ih]

theorem cDown_of_nodeAt {T : Type} (ks : List Char) (nd : TrieNode T)
    (cand : Option (Nat × Char)) (depth : Nat) (nN : TrieNode T)
    (h : nodeAt nd ks = some nN) :
    ∃ cand2, cDown nd ks cand depth = some (nN, cand2) := by
  cases hcd : cDown nd ks cand depth with
  | none =>
    rw [cDown_isNone_iff] at hcd
    rw [hcd] at h
    simp at h
  | some r =>
    obtain ⟨nN', cand2⟩ := r
    have h2 := cDown_node ks nd cand depth nN' cand2 hcd
    rw [h2] at h
    simp at h
    rw [h]
    exact ⟨cand2, rfl⟩

/-- Soundness of the candidate maintained by the concurrent downward loop:
whenever the final candidate points at depth `d > 0`, the node at that depth
passed the reset test (it has a value with children, or more than one
child).  Nothing is recorded about depth 0 — the top-level node is never
inspected. -/
theorem cDown_spec {T : Type} (t : TrieMap T) (key : List Char) (ks : List Char) :
    ∀ (nd : TrieNode T) (cand : Option (Nat × Char)) (depth : Nat),
      nodeAt (rootNode t) (key.take depth) = some nd →
      key.drop depth = ks →
      (cand = none → cKeepP nd) →
      (∀ d c, cand = some (d, c) → d = 0 ∨
        ∃ m, nodeAt (rootNode t) (key.take d) = some m ∧ cKeepP m) →
      ∀ (nN : TrieNode T) (cand2 : Option (Nat × Char)),
        cDown nd ks cand depth = some (nN, cand2) →
        nodeAt (rootNode t) key = some nN ∧
        (∀ d c, cand2 = some (d, c) → d = 0 ∨
          ∃ m, nodeAt (rootNode t) (key.take d) = some m ∧ cKeepP m) := by
  induction ks with
  | nil =>
    intro nd cand depth h1 h2 h3 h4 nN cand2 h5
    simp [cDown] at h5
    obtain ⟨h6, h7⟩ := h5
    have h8 : key.take depth = key := take_of_drop_nil key depth h2
    rw [h8] at h1
    subst h6
    subst h7
    exact ⟨h1, h4⟩
  | cons c ks ih =>
    intro nd cand depth h1 h2 h3 h4 nN cand2 h5
    simp only [cDown] at h5
    cases hg : alGet nd.children c with
    | none => simp [hg] at h5
    | some ch =>
      simp only [hg, Option.some_bind] at h5
      obtain ⟨ht1, ht2⟩ := take_drop_of_drop_cons key depth c ks h2
      have h1' : nodeAt (rootNode t) (key.take (depth + 1)) = some ch := by
        rw [ht1, nodeAt_append, h1, Option.some_bind, nodeAt_cons, hg]
        simp
      by_cases hck : cKeepP ch
      · simp only [if_pos hck] at h5
        exact ih ch none (depth + 1) h1' ht2 (fun _ => hck) (by simp) nN cand2 h5
      · simp only [if_neg hck] at h5
        cases hcand : cand with
        | none =>
          rw [hcand] at h5
          simp only [Option.isNone_none, if_pos] at h5
          refine ih ch (some (depth, c)) (depth + 1) h1' ht2 (by simp) ?_ nN cand2 h5
          intro d c' heq
          simp at heq
          obtain ⟨hd, hc⟩ := heq
          subst hd
          exact Or.inr ⟨nd, h1, h3 hcand⟩
        | some y =>
          rw [hcand] at h5
          simp only [Option.isNone_some, Bool.false_eq_true, if_neg, ite_false] at h5
          refine ih ch (some y) (depth + 1) h1' ht2 (by simp) ?_ nN cand2 h5
          intro d c' heq
          exact h4 d c' (by rw [hcand, heq])

/-- Complete case analysis of the concurrent `Trie::remove`: failure leaves
the map untouched; a dead-code branch returns success without touching the
map; the clear branch mirrors the single-threaded one; and the prune branch
cuts at the precomputed candidate, whose depth is either positive and
pointing at a node that passed the reset test, or 0 — the unchecked
top-level map. -/
theorem cremove_cases {T : Type} (t : TrieMap T) (key : List Char) :
    (cremove t key =
        (.error (if key = [] then "Key can not be empty" else "No corresponding value"), t) ∧
      vAt (rootNode t) key = none) ∨
    (cremove t key = (.ok (), t) ∧ vAt (rootNode t) key ≠ none ∧
      ∃ nL, nodeAt (rootNode t) key = some nL ∧ nL.children = []) ∨
    (∃ nN, key ≠ [] ∧ nodeAt (rootNode t) key = some nN ∧ nN.isEnd = true ∧
      nN.children ≠ [] ∧
      cremove t key = (.ok (), (clearAt (rootNode t) key).children)) ∨
    (∃ d cut nd, nodeAt (rootNode t) (key.take d) = some nd ∧
      (d ≠ 0 → cKeepP nd) ∧
      (∃ nL, nodeAt (rootNode t) key = some nL ∧ nL.children = []) ∧
      vAt (rootNode t) key ≠ none ∧
      cremove t key = (.ok (), (eraseAt (rootNode t) (key.take d) cut).children)) := by
  cases hkey : key with
  | nil => exact Or.inl ⟨by simp [cremove], by simp [vAt, rootNode]⟩
  | cons c1 ks =>
    rw [← hkey]
    have hkne : key ≠ [] := by rw [hkey]; simp
    have hroot : nodeAt (rootNode t) key = (alGet t c1).bind fun n1 => nodeAt n1 ks := by
      rw [hkey, nodeAt_cons]
      rfl
    cases hg1 : alGet t c1 with
    | none =>
      have hnone : nodeAt (rootNode t) key = none := by rw [hroot, hg1]; rfl
      refine Or.inl ⟨?_, by simp [vAt, hnone]⟩
      rw [hkey]
      simp [cremove, hg1, hkne, ← hkey]
    | some n1 =>
      cases hcd : cDown n1 ks (some (0, c1)) 1 with
      | none =>
        have hnone : nodeAt (rootNode t) key = none := by
          rw [hroot, hg1, Option.some_bind]
          exact (cDown_isNone_iff _ _ _ _).mp hcd
        refine Or.inl ⟨?_, by simp [vAt, hnone]⟩
        rw [hkey]
        simp [cremove, hg1, hcd, hkne, ← hkey]
      | some r =>
        obtain ⟨nN, cand⟩ := r
        have hfin : nodeAt (rootNode t) key = some nN := by
          rw [hroot, hg1, Option.some_bind]
          exact cDown_node ks n1 _ 1 nN cand hcd
        by_cases hend : nN.isEnd
        · have hvsome : vAt (rootNode t) key ≠ none := by
            rw [TrieNode.isEnd] at hend
            simp [vAt, hfin]
            intro hx
            rw [hx] at hend
            simp at hend
          by_cases hemp : nN.children.isEmpty
          · cases hcand : cand with
            | none =>
              refine Or.inr (Or.inl ⟨?_, hvsome, nN, hfin, by simpa using hemp⟩)
              rw [hkey]
              simp [cremove, hg1, hcd, hcand, hend, hemp]
            | some dc =>
              obtain ⟨d, cut⟩ := dc
              have hspec := cDown_spec t key ks n1 (some (0, c1)) 1
                (by rw [hkey]; simp [nodeAt_cons, rootNode, hg1])
                (by rw [hkey]; simp)
                (by simp)
                (by intro d' c' heq; simp at heq; exact Or.inl heq.1.symm)
                nN cand hcd
              have hdc := hspec.2 d cut hcand
              rcases hdc with hdc | ⟨m, hm, hkm⟩
              · subst hdc
                refine Or.inr (Or.inr (Or.inr ⟨0, cut, rootNode t, by simp, ?_,
                  ⟨nN, hfin, by simpa using hemp⟩, hvsome, ?_⟩))
                · intro hx; exact absurd rfl hx
                · rw [hkey]
                  simp [cremove, hg1, hcd, hcand, hend, hemp]
              · refine Or.inr (Or.inr (Or.inr ⟨d, cut, m, hm, fun _ => hkm,
                  ⟨nN, hfin, by simpa using hemp⟩, hvsome, ?_⟩))
                rw [hkey]
                simp [cremove, hg1, hcd, hcand, hend, hemp]
          · refine Or.inr (Or.inr (Or.inl ⟨nN, hkne, hfin, hend, by simpa using hemp, ?_⟩))
            rw [hkey]
            simp [cremove, hg1, hcd, hend, hemp, ← hkey]
        · have hvn : nN.value = none := by
            simp [TrieNode.isEnd] at hend
            exact hend
          refine Or.inl ⟨?_, by simp [vAt, hfin, hvn]⟩
          rw [hkey]
          simp [cremove, hg1, hcd, hend, hkne, ← hkey]

/-- Result of the concurrent `Trie::remove`: the same error discipline as the
single-threaded variant. -/
theorem cremove_fst {T : Type} (t : TrieMap T) (key : List Char) :
    (cremove t key).1 =
      if key = [] then .error "Key can not be empty"
      else if (vAt (rootNode t) key).isSome then .ok ()
      else .error "No corresponding value" := by
  rcases cremove_cases t key with ⟨hs, hv⟩ | ⟨hs, hv, hleafB⟩ |
    ⟨nN, hkne, hnode, hend, hch, hs⟩ | ⟨d, cut, nd, hnode, hk, hleaf, hv, hs⟩
  · rw [hs]
    by_cases hk : key = []
    · simp [hk]
    · simp [hk, hv]
  · have hkne : key ≠ [] := by
      intro hx
      apply hv
      rw [hx]
      simp [vAt, rootNode]
    have hvsome : (vAt (rootNode t) key).isSome = true := by
      cases hvx : vAt (rootNode t) key with
      | none => exact absurd hvx hv
      | some x => rfl
    rw [hs]
    simp [hkne, hvsome]
  · have hvsome : (vAt (rootNode t) key).isSome = true := by
      rw [TrieNode.isEnd] at hend
      simp [vAt, hnode, hend]
    rw [hs]
    simp [hkne, hvsome]
  · have hkne : key ≠ [] := by
      intro hx
      apply hv
      rw [hx]
      simp [vAt, rootNode]
    have hvsome : (vAt (rootNode t) key).isSome = true := by
      cases hvx : vAt (rootNode t) key with
      | none => exact absurd hvx hv
      | some x => rfl
    rw [hs]
    simp [hkne, hvsome]

theorem cremove_err_state {T : Type} (t : TrieMap T) (key : List Char) (e : String)
    (h : (cremove t key).1 = .error e) : (cremove t key).2 = t := by
  rcases cremove_cases t key with ⟨hs, hv⟩ | ⟨hs, hv, hleafB⟩ |
    ⟨nN, hkne, hnode, hend, hch, hs⟩ | ⟨d, cut, nd, hnode, hk, hleaf, hv, hs⟩
  · rw [hs]
  · rw [hs]
  · rw [hs] at h; simp at h
  · rw [hs] at h; simp at h

theorem alGet_mem {T : Type} (l : TrieMap T) (c : Char) (x : TrieNode T)
    (h : alGet l c = some x) : (c, x) ∈ l := by
  induction l with
  | nil => simp at h
  | cons p l ih =>
    obtain ⟨a, n⟩ := p
    by_cases ha : a = c
    · subst ha
      simp at h
      simp [h]
    · simp [ha] at h
      exact List.mem_cons_of_mem _ (ih h)

theorem alGet_none_not_mem {T : Type} (l : TrieMap T) (c : Char)
    (h : alGet l c = none) : c ∉ l.map Prod.fst := by
  induction l with
  | nil => simp
  | cons p l ih =>
    obtain ⟨a, n⟩ := p
    by_cases ha : a = c
    · simp [ha] at h
    · simp [ha] at h
      simp [ih h]
      intro hx
      exact ha hx.symm

/-- Result of `Trie::insert` (both variants wrap the same node walk): the
empty-key error, the duplicate-key error exactly when the key already stores
a value, and success otherwise. -/
theorem sinsert_fst {T : Type} (t : TrieMap T) (key : List Char) (v : T) :
    (sinsert t key v).1 =
      if key = [] then .error "Key can not be empty"
      else if (vAt (rootNode t) key).isSome then .error "Duplicate keys are not allowed"
      else .ok () := by
  cases key with
  | nil => simp [sinsert]
  | cons c ks =>
    simp only [sinsert]
    rw [insertGo_fst]
    simp

theorem sinsert_err_state {T : Type} (t : TrieMap T) (key : List Char) (v : T)
    (h : (sinsert t key v).1 ≠ .ok ()) : (sinsert t key v).2 = t := by
  cases key with
  | nil => rfl
  | cons c ks =>
    simp only [sinsert] at h ⊢
    rw [insertGo_err_state (rootNode t) (c :: ks) v h]
    rfl

/-- A successful `Trie::insert` makes exactly the inserted key read the new
value; every other key reads as before. -/
theorem sinsert_vAt {T : Type} (t : TrieMap T) (key : List Char) (v : T)
    (h : (sinsert t key v).1 = .ok ()) (k' : List Char) :
    vAt (rootNode ((sinsert t key v).2)) k' =
      if k' = key then some v else vAt (rootNode t) k' := by
  cases hkey : key with
  | nil => rw [hkey] at h; simp [sinsert] at h
  | cons c ks =>
    rw [hkey] at h
    simp only [sinsert] at h ⊢
    have hval : (TrieNode.insertGo (rootNode t) (c :: ks) v).2.value = none :=
      insertGo_value_cons _ _ _ _
    rw [rootNode_children _ hval]
    exact insertGo_vAt (rootNode t) (c :: ks) v h k'

/-- The two `Trie::insert` wrappers are the same function (the underlying
`TrieNode::insert` is textually identical in the two files). -/
theorem cinsert_eq_sinsert {T : Type} (t : TrieMap T) (key : List Char) (v : T) :
    cinsert t key v = sinsert t key v := by
  cases key <;> rfl

/-- The two `Trie::get`s run the identical walking loop. -/
theorem cget_eq_sget {T : Type} (t : TrieMap T) (key : List Char) :
    cget t key = sget t key := rfl

/-- The structural invariant of the spec: no node with an absent value and an
empty child map exists anywhere in the graph. -/
inductive NoDeadI {T : Type} : TrieNode T → Prop where
  | mk : ∀ (v : Option T) (cs : TrieMap T), (v.isSome = true ∨ cs ≠ []) →
      (∀ p ∈ cs, NoDeadI p.2) → NoDeadI (.mk v cs)

/-- All top-level nodes, with their whole subtrees, satisfy the no-dead-node
invariant (the pseudo root itself is not a node of the graph). -/
def NoDeadMap {T : Type} (t : TrieMap T) : Prop := ∀ p ∈ t, NoDeadI p.2

/-- Well-formedness inherited from `HashMap`: child maps bind each character
at most once. -/
inductive WFI {T : Type} : TrieNode T → Prop where
  | mk : ∀ (v : Option T) (cs : TrieMap T), (cs.map Prod.fst).Nodup →
      (∀ p ∈ cs, WFI p.2) → WFI (.mk v cs)

def WFMap {T : Type} (t : TrieMap T) : Prop := WFI (rootNode t)

theorem noDeadAlive {T : Type} (n : TrieNode T) (h : NoDeadI n) :
    n.value.isSome = true ∨ n.children ≠ [] := by
  cases h with
  | mk v cs h1 h2 => simpa using h1

theorem noDeadSub {T : Type} (n : TrieNode T) (h : NoDeadI n) :
    ∀ p ∈ n.children, NoDeadI p.2 := by
  cases h with
  | mk v cs h1 h2 => simpa using h2

theorem noDeadOfParts {T : Type} (n : TrieNode T)
    (h1 : n.value.isSome = true ∨ n.children ≠ [])
    (h2 : ∀ p ∈ n.children, NoDeadI p.2) : NoDeadI n := by
  cases n with
  | mk v cs => exact NoDeadI.mk v cs (by simpa using h1) (by simpa using h2)

theorem wfNodup {T : Type} (n : TrieNode T) (h : WFI n) :
    (n.children.map Prod.fst).Nodup := by
  cases h with
  | mk v cs h1 h2 => simpa using h1

theorem wfSub {T : Type} (n : TrieNode T) (h : WFI n) : ∀ p ∈ n.children, WFI p.2 := by
  cases h with
  | mk v cs h1 h2 => simpa using h2

theorem wfOfParts {T : Type} (n : TrieNode T)
    (h1 : (n.children.map Prod.fst).Nodup)
    (h2 : ∀ p ∈ n.children, WFI p.2) : WFI n := by
  cases n with
  | mk v cs => exact WFI.mk v cs (by simpa using h1) (by simpa using h2)

theorem wfRelabel {T : Type} (n : TrieNode T) (v : Option T) (h : WFI n) :
    WFI (TrieNode.mk v n.children) :=
  wfOfParts _ (by simpa using wfNodup n h) (by simpa using wfSub n h)

theorem WFI_nodeAt {T : Type} (p : List Char) (n m : TrieNode T) (h : WFI n)
    (hp : nodeAt n p = some m) : WFI m := by
  induction p generalizing n with
  | nil => simp at hp; rw [← hp]; exact h
  | cons c p ih =>
    rw [nodeAt_cons] at hp
    cases hg : alGet n.children c with
    | none => rw [hg] at hp; simp at hp
    | some ch =>
      rw [hg] at hp
      simp at hp
      exact ih ch (wfSub n h (c, ch) (alGet_mem _ _ _ hg)) hp

/-- A successful `TrieNode::insert` keeps every subtree free of dead nodes:
fresh intermediate nodes get a child, the final node gets the value. -/
theorem insertGo_noDead {T : Type} (ks : List Char) (n : TrieNode T) (v : T)
    (hok : (TrieNode.insertGo n ks v).1 = .ok ())
    (h : ∀ p ∈ n.children, NoDeadI p.2) :
    (∀ p ∈ (TrieNode.insertGo n ks v).2.children, NoDeadI p.2) ∧
      (TrieNode.insertGo n ks v).2.value = (if ks = [] then some v else n.value) ∧
      (ks ≠ [] → (TrieNode.insertGo n ks v).2.children ≠ []) := by
  induction ks generalizing n with
  | nil =>
    by_cases he : n.isEnd
    · simp [TrieNode.insertGo, he] at hok
    · simp only [TrieNode.insertGo, he, Bool.false_eq_true, if_false]
      refine ⟨by simpa using h, by simp, fun hx => absurd rfl hx⟩
  | cons c ks ih =>
    simp only [TrieNode.insertGo] at hok ⊢
    have hchild : ∀ p ∈ ((alGet n.children c).getD TrieNode.newNode).children, NoDeadI p.2 := by
      cases hg : alGet n.children c with
      | none => simp [TrieNode.newNode]
      | some ch =>
        simp only [hg, Option.getD]
        exact noDeadSub ch (by
          have h2 := h (c, ch) (alGet_mem _ _ _ hg)
          exact h2)
    obtain ⟨ihd, ihv, ihne⟩ := ih ((alGet n.children c).getD TrieNode.newNode) hok hchild
    have hnd : NoDeadI (TrieNode.insertGo ((alGet n.children c).getD TrieNode.newNode) ks v).2 := by
      apply noDeadOfParts
      · cases hks : ks with
        | nil =>
          subst hks
          left
          rw [ihv]
          simp
        | cons c2 ks2 =>
          subst hks
          right
          exact ihne (by simp)
      · exact ihd
    refine ⟨?_, by simp, fun _ => by simp [alPut_ne_nil]⟩
    intro p hp
    rcases mem_alPut _ _ _ _ hp with hp | hp
    · rw [hp]
      exact hnd
    · exact h p hp

/-- `TrieNode::insert` keeps child maps duplicate-free. -/
theorem insertGo_wf {T : Type} (ks : List Char) (n : TrieNode T) (v : T)
    (h : WFI n) : WFI (TrieNode.insertGo n ks v).2 := by
  induction ks generalizing n with
  | nil =>
    by_cases he : n.isEnd
    · simpa [TrieNode.insertGo, he] using h
    · simp only [TrieNode.insertGo, he, Bool.false_eq_true, if_false]
      exact wfRelabel n _ h
  | cons c ks ih =>
    simp only [TrieNode.insertGo]
    have hchild : WFI ((alGet n.children c).getD TrieNode.newNode) := by
      cases hg : alGet n.children c with
      | none =>
        simp only [hg, Option.getD]
        exact WFI.mk none [] (by simp) (by simp)
      | some ch =>
        simp only [hg, Option.getD]
        exact wfSub n h (c, ch) (alGet_mem _ _ _ hg)
    have hch' := ih _ hchild
    apply wfOfParts
    · simp only [TrieNode.children_mk]
      rcases keys_alPut c (TrieNode.insertGo ((alGet n.children c).getD TrieNode.newNode) ks v).2
        n.children with hk | ⟨hk, hg⟩
      · rw [hk]; exact wfNodup _ h
      · rw [hk]
        have hnm := alGet_none_not_mem _ _ hg
        simp only [List.nodup_append]
        exact ⟨wfNodup _ h, by simp, by simpa using hnm⟩
    · simp only [TrieNode.children_mk]
      intro p hp
      rcases mem_alPut _ _ _ _ hp with hp | hp
      · rw [hp]; exact hch'
      · exact wfSub n h p hp

/-- Removing one child binding at the end of an existing path keeps the graph
free of dead nodes, as long as the node losing the binding stays alive. -/
theorem eraseAt_noDead {T : Type} (p : List Char) (n : TrieNode T) (c : Char) (np : TrieNode T)
    (hp : nodeAt n p = some np)
    (halive : p ≠ [] → (np.value.isSome = true ∨ alErase c np.children ≠ []))
    (h : ∀ q ∈ n.children, NoDeadI q.2) :
    (∀ q ∈ (eraseAt n p c).children, NoDeadI q.2) ∧ (eraseAt n p c).value = n.value := by
  induction p generalizing n np with
  | nil =>
    refine ⟨?_, by simp [eraseAt]⟩
    intro q hq
    simp only [eraseAt, TrieNode.children_mk] at hq
    exact h q (mem_alErase _ _ _ hq)
  | cons a p ih =>
    rw [nodeAt_cons] at hp
    cases hg : alGet n.children a with
    | none => rw [hg] at hp; simp at hp
    | some ch =>
      rw [hg] at hp
      simp only [Option.some_bind] at hp
      refine ⟨?_, by simp [eraseAt]⟩
      intro q hq
      simp only [eraseAt, TrieNode.children_mk] at hq
      rcases mem_alUpdate _ _ _ _ hq with hq | ⟨x, hx, hqx⟩
      · exact h q hq
      · rw [hg] at hx
        simp at hx
        subst hx
        rw [hqx]
        have hsub : ∀ q ∈ ch.children, NoDeadI q.2 :=
          noDeadSub ch (h (a, ch) (alGet_mem _ _ _ hg))
        obtain ⟨ihd, ihv⟩ := ih ch np hp (fun _ => halive (by simp)) hsub
        apply noDeadOfParts
        · cases hp' : p with
          | nil =>
            subst hp'
            simp at hp
            subst hp
            rcases halive (by simp) with hv | hc
            · left
              simp only [eraseAt, TrieNode.value_mk]
              exact hv
            · right
              simp only [eraseAt, TrieNode.children_mk]
              exact hc
          | cons b p2 =>
            subst hp'
            right
            rw [nodeAt_cons] at hp
            cases hgb : alGet ch.children b with
            | none => rw [hgb] at hp; simp at hp
            | some ch2 =>
              simp only [eraseAt, TrieNode.children_mk]
              intro hx
              have h3 : (alUpdate b (fun x => eraseAt x p2 c) ch.children).length
                  = ch.children.length := length_alUpdate _ _ _
              rw [hx] at h3
              have h4 : ch.children = [] := by
                cases hcc : ch.children with
                | nil => rfl
                | cons y l => rw [hcc] at h3; simp at h3
              rw [h4] at hgb
              simp at hgb
        · exact ihd

/-- Clearing the value of a node that still has children keeps the graph free
of dead nodes. -/
theorem clearAt_noDead {T : Type} (p : List Char) (n : TrieNode T) (np : TrieNode T)
    (hp : nodeAt n p = some np) (halive : np.children ≠ [])
    (h : ∀ q ∈ n.children, NoDeadI q.2) :
    (∀ q ∈ (clearAt n p).children, NoDeadI q.2) ∧
      (p ≠ [] → (clearAt n p).value = n.value) := by
  induction p generalizing n np with
  | nil =>
    simp at hp
    subst hp
    exact ⟨by simpa [clearAt] using h, fun hx => absurd rfl hx⟩
  | cons a p ih =>
    rw [nodeAt_cons] at hp
    cases hg : alGet n.children a with
    | none => rw [hg] at hp; simp at hp
    | some ch =>
      rw [hg] at hp
      simp only [Option.some_bind] at hp
      refine ⟨?_, fun _ => by simp [clearAt]⟩
      intro q hq
      simp only [clearAt, TrieNode.children_mk] at hq
      rcases mem_alUpdate _ _ _ _ hq with hq | ⟨x, hx, hqx⟩
      · exact h q hq
      · rw [hg] at hx
        simp at hx
        subst hx
        rw [hqx]
        have hsub : ∀ q ∈ ch.children, NoDeadI q.2 :=
          noDeadSub ch (h (a, ch) (alGet_mem _ _ _ hg))
        obtain ⟨ihd, ihv⟩ := ih ch np hp halive hsub
        apply noDeadOfParts
        · cases hp' : p with
          | nil =>
            subst hp'
            simp at hp
            subst hp
            right
            simp only [clearAt, TrieNode.children_mk]
            exact halive
          | cons b p2 =>
            subst hp'
            right
            rw [nodeAt_cons] at hp
            cases hgb : alGet ch.children b with
            | none => rw [hgb] at hp; simp at hp
            | some ch2 =>
              simp only [clearAt, TrieNode.children_mk]
              intro hx
              have h3 : (alUpdate b (fun x => clearAt x p2) ch.children).length
                  = ch.children.length := length_alUpdate _ _ _
              rw [hx] at h3
              have h4 : ch.children = [] := by
                cases hcc : ch.children with
                | nil => rfl
                | cons y l => rw [hcc] at h3; simp at h3
              rw [h4] at hgb
              simp at hgb
        · exact ihd

theorem eraseAt_wf {T : Type} (p : List Char) (n : TrieNode T) (c : Char)
    (h : WFI n) : WFI (eraseAt n p c) := by
  induction p generalizing n with
  | nil =>
    apply wfOfParts
    · simp only [eraseAt, TrieNode.children_mk]
      exact (keys_alErase_sublist c n.children).nodup (wfNodup _ h)
    · simp only [eraseAt, TrieNode.children_mk]
      intro q hq
      exact wfSub n h q (mem_alErase _ _ _ hq)
  | cons a p ih =>
    apply wfOfParts
    · simp only [eraseAt, TrieNode.children_mk, keys_alUpdate]
      exact wfNodup _ h
    · simp only [eraseAt, TrieNode.children_mk]
      intro q hq
      rcases mem_alUpdate _ _ _ _ hq with hq | ⟨x, hx, hqx⟩
      · exact wfSub n h q hq
      · rw [hqx]
        exact ih x (wfSub n h (a, x) (alGet_mem _ _ _ hx))

theorem clearAt_wf {T : Type} (p : List Char) (n : TrieNode T)
    (h : WFI n) : WFI (clearAt n p) := by
  induction p generalizing n with
  | nil => exact wfRelabel n none h
  | cons a p ih =>
    apply wfOfParts
    · simp only [clearAt, TrieNode.children_mk, keys_alUpdate]
      exact wfNodup _ h
    · simp only [clearAt, TrieNode.children_mk]
      intro q hq
      rcases mem_alUpdate _ _ _ _ hq with hq | ⟨x, hx, hqx⟩
      · exact wfSub n h q hq
      · rw [hqx]
        exact ih x (wfSub n h (a, x) (alGet_mem _ _ _ hx))

theorem NoDeadMap_children {T : Type} (t : TrieMap T) (h : NoDeadMap t) :
    ∀ p ∈ (rootNode t).children, NoDeadI p.2 := by
  intro p hp
  exact h p (by simpa [rootNode] using hp)

theorem sinsert_noDead {T : Type} (t : TrieMap T) (key : List Char) (v : T)
    (h : NoDeadMap t) : NoDeadMap (sinsert t key v).2 := by
  cases hres : (sinsert t key v).1 with
  | error e =>
    rw [sinsert_err_state t key v (by rw [hres]; simp)]
    exact h
  | ok u =>
    cases key with
    | nil => simp [sinsert] at hres
    | cons c ks =>
      simp only [sinsert] at hres ⊢
      exact (insertGo_noDead (c :: ks) (rootNode t) v hres (NoDeadMap_children t h)).1

theorem sinsert_wf {T : Type} (t : TrieMap T) (key : List Char) (v : T)
    (h : WFMap t) : WFMap (sinsert t key v).2 := by
  cases key with
  | nil => exact h
  | cons c ks =>
    simp only [sinsert]
    have h2 := insertGo_wf (c :: ks) (rootNode t) v h
    exact wfRelabel _ none h2

theorem cinsert_noDead {T : Type} (t : TrieMap T) (key : List Char) (v : T)
    (h : NoDeadMap t) : NoDeadMap (cinsert t key v).2 := by
  rw [cinsert_eq_sinsert]
  exact sinsert_noDead t key v h

theorem cinsert_wf {T : Type} (t : TrieMap T) (key : List Char) (v : T)
    (h : WFMap t) : WFMap (cinsert t key v).2 := by
  rw [cinsert_eq_sinsert]
  exact sinsert_wf t key v h

theorem keeperP_alive {T : Type} (nd : TrieNode T) (c : Char) (hk : keeperP nd)
    (hwf : WFI nd) : nd.value.isSome = true ∨ alErase c nd.children ≠ [] := by
  rcases hk with hk | hk
  · exact Or.inr (alErase_ne_nil c nd.children (wfNodup _ hwf) hk)
  · rw [TrieNode.isEnd] at hk
    exact Or.inl hk

theorem cKeepP_alive {T : Type} (nd : TrieNode T) (c : Char) (hk : cKeepP nd)
    (hwf : WFI nd) : nd.value.isSome = true ∨ alErase c nd.children ≠ [] := by
  rcases hk with ⟨hk, _⟩ | hk
  · rw [TrieNode.isEnd] at hk
    exact Or.inl hk
  · exact Or.inr (alErase_ne_nil c nd.children (wfNodup _ hwf) hk)

theorem sremove_noDead {T : Type} (t : TrieMap T) (key : List Char)
    (hwf : WFMap t) (h : NoDeadMap t) : NoDeadMap (sremove t key).2 := by
  rcases sremove_cases t key with ⟨hs, hv⟩ | ⟨nN, hkne, hnode, hend, hch, hs⟩ |
    ⟨d, cut, q', nd, ch, hkk, hnode, hkeep, hg, hchOK, hleaf, hvs, hs⟩
  · rw [hs]; exact h
  · rw [hs]
    exact (clearAt_noDead key (rootNode t) nN hnode hch (NoDeadMap_children t h)).1
  · rw [hs]
    have halive : key.take d ≠ [] →
        (nd.value.isSome = true ∨ alErase cut nd.children ≠ []) := by
      intro hne
      exact keeperP_alive nd cut (hkeep hne) (WFI_nodeAt (key.take d) _ nd hwf hnode)
    exact (eraseAt_noDead (key.take d) (rootNode t) cut nd hnode halive
      (NoDeadMap_children t h)).1

theorem sremove_wf {T : Type} (t : TrieMap T) (key : List Char)
    (hwf : WFMap t) : WFMap (sremove t key).2 := by
  rcases sremove_cases t key with ⟨hs, hv⟩ | ⟨nN, hkne, hnode, hend, hch, hs⟩ |
    ⟨d, cut, q', nd, ch, hkk, hnode, hkeep, hg, hchOK, hleaf, hvs, hs⟩
  · rw [hs]; exact hwf
  · rw [hs]
    exact wfRelabel _ none (clearAt_wf key (rootNode t) hwf)
  · rw [hs]
    exact wfRelabel _ none (eraseAt_wf (key.take d) (rootNode t) cut hwf)

theorem cremove_noDead {T : Type} (t : TrieMap T) (key : List Char)
    (hwf : WFMap t) (h : NoDeadMap t) : NoDeadMap (cremove t key).2 := by
  rcases cremove_cases t key with ⟨hs, hv⟩ | ⟨hs, hv, hleafB⟩ |
    ⟨nN, hkne, hnode, hend, hch, hs⟩ | ⟨d, cut, nd, hnode, hk, hleaf, hv, hs⟩
  · rw [hs]; exact h
  · rw [hs]; exact h
  · rw [hs]
    exact (clearAt_noDead key (rootNode t) nN hnode hch (NoDeadMap_children t h)).1
  · rw [hs]
    have halive : key.take d ≠ [] →
        (nd.value.isSome = true ∨ alErase cut nd.children ≠ []) := by
      intro hne
      have hd : d ≠ 0 := by
        intro hx
        rw [hx] at hne
        simp at hne
      exact cKeepP_alive nd cut (hk hd) (WFI_nodeAt (key.take d) _ nd hwf hnode)
    exact (eraseAt_noDead (key.take d) (rootNode t) cut nd hnode halive
      (NoDeadMap_children t h)).1

theorem cremove_wf {T : Type} (t : TrieMap T) (key : List Char)
    (hwf : WFMap t) : WFMap (cremove t key).2 := by
  rcases cremove_cases t key with ⟨hs, hv⟩ | ⟨hs, hv, hleafB⟩ |
    ⟨nN, hkne, hnode, hend, hch, hs⟩ | ⟨d, cut, nd, hnode, hk, hleaf, hv, hs⟩
  · rw [hs]; exact hwf
  · rw [hs]; exact hwf
  · rw [hs]
    exact wfRelabel _ none (clearAt_wf key (rootNode t) hwf)
  · rw [hs]
    exact wfRelabel _ none (eraseAt_wf (key.take d) (rootNode t) cut hwf)

/-- An operation issued against a trie: a lookup, an insertion, or a
removal. -/
inductive TrieOp (T : Type) where
  | get (key : List Char)
  | insert (key : List Char) (v : T)
  | remove (key : List Char)
  deriving DecidableEq

/-- Apply one operation to the single-threaded variant (`get` takes `&self`
and never mutates). -/
def applyS {T : Type} (t : TrieMap T) (op : TrieOp T) : TrieMap T :=
  match op with
  | .get _ => t
  | .insert k v => (sinsert t k v).2
  | .remove k => (sremove t k).2

/-- Apply one operation to the concurrent variant, operations serialized by
the container-level `RwLock`. -/
def applyC {T : Type} (t : TrieMap T) (op : TrieOp T) : TrieMap T :=
  match op with
  | .get _ => t
  | .insert k v => (cinsert t k v).2
  | .remove k => (cremove t k).2

def runS {T : Type} (t : TrieMap T) (ops : List (TrieOp T)) : TrieMap T :=
  ops.foldl applyS t

def runC {T : Type} (t : TrieMap T) (ops : List (TrieOp T)) : TrieMap T :=
  ops.foldl applyC t

theorem applyS_invariant {T : Type} (t : TrieMap T) (op : TrieOp T)
    (h : WFMap t ∧ NoDeadMap t) : WFMap (applyS t op) ∧ NoDeadMap (applyS t op) := by
  cases op with
  | get k => exact h
  | insert k v => exact ⟨sinsert_wf t k v h.1, sinsert_noDead t k v h.2⟩
  | remove k => exact ⟨sremove_wf t k h.1, sremove_noDead t k h.1 h.2⟩

theorem applyC_invariant {T : Type} (t : TrieMap T) (op : TrieOp T)
    (h : WFMap t ∧ NoDeadMap t) : WFMap (applyC t op) ∧ NoDeadMap (applyC t op) := by
  cases op with
  | get k => exact h
  | insert k v => exact ⟨cinsert_wf t k v h.1, cinsert_noDead t k v h.2⟩
  | remove k => exact ⟨cremove_wf t k h.1, cremove_noDead t k h.1 h.2⟩

theorem runS_invariant {T : Type} (ops : List (TrieOp T)) (t : TrieMap T)
    (h : WFMap t ∧ NoDeadMap t) : WFMap (runS t ops) ∧ NoDeadMap (runS t ops) := by
  induction ops generalizing t with
  | nil => exact h
  | cons op ops ih => exact ih (applyS t op) (applyS_invariant t op h)

theorem runC_invariant {T : Type} (ops : List (TrieOp T)) (t : TrieMap T)
    (h : WFMap t ∧ NoDeadMap t) : WFMap (runC t ops) ∧ NoDeadMap (runC t ops) := by
  induction ops generalizing t with
  | nil => exact h
  | cons op ops ih => exact ih (applyC t op) (applyC_invariant t op h)

theorem new_invariant (T : Type) : WFMap (trieNew T) ∧ NoDeadMap (trieNew T) := by
  constructor
  · exact WFI.mk none [] (by simp) (by simp)
  · intro p hp
    simp [trieNew] at hp

/-- When the removed key's final node is terminal and still has children,
the single-threaded `Trie::remove` only clears that node's value. -/
theorem sremove_clear {T : Type} (t : TrieMap T) (key : List Char) (nN : TrieNode T)
    (hnode : nodeAt (rootNode t) key = some nN) (hend : nN.isEnd = true)
    (hch : nN.children.isEmpty = false) :
    sremove t key = (.ok (), (clearAt (rootNode t) key).children) := by
  rcases sremove_cases t key with ⟨hs, hv⟩ | ⟨nN', hkne, hnode', hend', hch', hs⟩ |
    ⟨d, cut, q', nd, ch, hkk, hnode', hkeep, hg, hchOK, hleaf, hvs, hs⟩
  · exfalso
    rw [vAt, hnode] at hv
    simp at hv
    rw [TrieNode.isEnd, hv] at hend
    simp at hend
  · exact hs
  · exfalso
    obtain ⟨nL, hnodeL, hchL⟩ := hleaf
    rw [hnode] at hnodeL
    simp at hnodeL
    rw [hnodeL, hchL] at hch
    simp at hch

/-- The concurrent variant takes the same value-clearing branch in that
situation. -/
theorem cremove_clear {T : Type} (t : TrieMap T) (key : List Char) (nN : TrieNode T)
    (hnode : nodeAt (rootNode t) key = some nN) (hend : nN.isEnd = true)
    (hch : nN.children.isEmpty = false) :
    cremove t key = (.ok (), (clearAt (rootNode t) key).children) := by
  rcases cremove_cases t key with ⟨hs, hv⟩ | ⟨hs, hv, hleafB⟩ |
    ⟨nN', hkne, hnode', hend', hch', hs⟩ | ⟨d, cut, nd, hnode', hk, hleaf, hv, hs⟩
  · exfalso
    rw [vAt, hnode] at hv
    simp at hv
    rw [TrieNode.isEnd, hv] at hend
    simp at hend
  · exfalso
    obtain ⟨nL, hnodeL, hchL⟩ := hleafB
    rw [hnode] at hnodeL
    simp at hnodeL
    rw [hnodeL, hchL] at hch
    simp at hch
  · exact hs
  · exfalso
    obtain ⟨nL, hnodeL, hchL⟩ := hleaf
    rw [hnode] at hnodeL
    simp at hnodeL
    rw [hnodeL, hchL] at hch
    simp at hch

/-- One single-threaded operation that is not `remove k` cannot change what
`get k` returns when it currently returns a value. -/
theorem applyS_keeps {T : Type} (t : TrieMap T) (k : List Char) (v : T) (op : TrieOp T)
    (hget : vAt (rootNode t) k = some v) (hop : op ≠ TrieOp.remove k) :
    vAt (rootNode (applyS t op)) k = some v := by
  cases op with
  | get k' => exact hget
  | insert k' v' =>
    simp only [applyS]
    cases hres : (sinsert t k' v').1 with
    | error e =>
      rw [sinsert_err_state t k' v' (by rw [hres]; simp)]
      exact hget
    | ok u =>
      have hkk : k ≠ k' := by
        intro hx
        subst hx
        rw [sinsert_fst] at hres
        by_cases h0 : k = []
        · rw [h0] at hget
          simp [vAt, rootNode] at hget
        · rw [if_neg h0, hget] at hres
          simp at hres
      rw [sinsert_vAt t k' v' hres k, if_neg hkk]
      exact hget
  | remove k' =>
    have hkk : k ≠ k' := by
      intro hx
      subst hx
      exact hop rfl
    simp only [applyS]
    rw [sremove_vAt t k' k, if_neg hkk]
    exact hget

theorem runS_keeps {T : Type} (ops : List (TrieOp T)) (t : TrieMap T) (k : List Char) (v : T)
    (hget : vAt (rootNode t) k = some v) (hops : ∀ op ∈ ops, op ≠ TrieOp.remove k) :
    vAt (rootNode (runS t ops)) k = some v := by
  induction ops generalizing t with
  | nil => exact hget
  | cons op ops ih =>
    exact ih (applyS t op)
      (applyS_keeps t k v op hget (hops op (by simp)))
      (fun op2 h2 => hops op2 (by simp [h2]))

/-- `removeMisses t k` is true exactly when walking `k` hits a missing child
or ends at a node with no stored value — the two `NotFound` situations. -/
def removeMisses {T : Type} (t : TrieMap T) (k : List Char) : Bool :=
  match nodeAt (rootNode t) k with
  | none => true
  | some n => n.value.isNone

theorem removeMisses_eq {T : Type} (t : TrieMap T) (k : List Char) :
    removeMisses t k = !(vAt (rootNode t) k).isSome := by
  rw [removeMisses]
  cases h : nodeAt (rootNode t) k with
  | none => simp [vAt, h]
  | some n =>
    simp only [vAt, h, Option.some_bind]
    cases n.value <;> simp

/-- C8: `get` never errors — it is a total function into `Option`.  It
returns the value stored at the final node of the key's path: absent when
some character on the path has no matching child (any extension of a missing
path reads absent, so the walk may stop there), absent at a non-terminal
intermediate node, and absent for the empty key.  The concurrent variant
runs the identical loop. -/
theorem get_total_characterization (T : Type) (t : TrieMap T) (k : List Char) :
    sget t k = (nodeAt (rootNode t) k).bind TrieNode.value ∧
    cget t k = sget t k ∧
    sget t [] = none ∧
    (∀ p q : List Char, nodeAt (rootNode t) p = none → sget t (p ++ q) = none) := by
  refine ⟨by rw [sget_eq_vAt]; rfl, rfl, rfl, ?_⟩
  intro p q hp
  rw [sget_eq_vAt, vAt_append, hp]
  rfl

theorem get_total_characterization_witness :
    sget (trieNew Nat) (['a'] ++ ['b']) = none ∧
    nodeAt (rootNode (trieNew Nat)) ['a'] = none :=
  ⟨(get_total_characterization Nat (trieNew Nat) ['a']).2.2.2 ['a'] ['b'] rfl, rfl⟩

/-- C6: `insert(k, v)` fails with the empty-key error exactly when `k` is
empty, fails with the duplicate-key error exactly when `k` already stores a
value — in which case the map is unchanged, so the first value is retained —
and otherwise succeeds and makes `get k` yield `v`.  The concurrent
`insert` is the same function. -/
theorem insert_error_contract (T : Type) (t : TrieMap T) (k : List Char) (v : T) :
    (sinsert t k v).1 =
      (if k = [] then .error "Key can not be empty"
       else if (sget t k).isSome then .error "Duplicate keys are not allowed"
       else .ok ()) ∧
    ((sinsert t k v).1 ≠ .ok () → (sinsert t k v).2 = t) ∧
    ((sinsert t k v).1 = .ok () → sget (sinsert t k v).2 k = some v) ∧
    cinsert t k v = sinsert t k v := by
  refine ⟨?_, sinsert_err_state t k v, ?_, cinsert_eq_sinsert t k v⟩
  · rw [sinsert_fst, sget_eq_vAt]
  · intro h
    rw [sget_eq_vAt, sinsert_vAt t k v h k, if_pos rfl]

theorem insert_error_contract_witness :
    (sinsert (trieNew Nat) ['a'] 0).1 = .ok () ∧
    sget (sinsert (trieNew Nat) ['a'] 0).2 ['a'] = some 0 ∧
    (sinsert (sinsert (trieNew Nat) ['a'] 0).2 ['a'] 5).1
      = .error "Duplicate keys are not allowed" ∧
    (sinsert (sinsert (trieNew Nat) ['a'] 0).2 ['a'] 5).2 = (sinsert (trieNew Nat) ['a'] 0).2 ∧
    (sinsert (trieNew Nat) [] 7).1 = .error "Key can not be empty" := by
  refine ⟨rfl, (insert_error_contract Nat (trieNew Nat) ['a'] 0).2.2.1 rfl, rfl, ?_, rfl⟩
  exact (insert_error_contract Nat (sinsert (trieNew Nat) ['a'] 0).2 ['a'] 5).2.1
    (fun hx => Except.noConfusion hx)

/-- C7: both `remove`s fail with the empty-key error exactly when the key is
empty, and fail with the not-found error exactly when the walk hits a
missing child or the final node stores no value (`removeMisses`); every
failure leaves the map untouched. -/
theorem remove_error_contract (T : Type) (t : TrieMap T) (k : List Char) :
    (sremove t k).1 =
      (if k = [] then .error "Key can not be empty"
       else if removeMisses t k then .error "No corresponding value"
       else .ok ()) ∧
    (cremove t k).1 = (sremove t k).1 ∧
    (∀ e, (sremove t k).1 = .error e → (sremove t k).2 = t) ∧
    (∀ e, (cremove t k).1 = .error e → (cremove t k).2 = t) := by
  have h1 : (sremove t k).1 =
      (if k = [] then .error "Key can not be empty"
       else if removeMisses t k then .error "No corresponding value"
       else .ok ()) := by
    rw [sremove_fst, removeMisses_eq]
    cases (vAt (rootNode t) k).isSome <;> simp
  refine ⟨h1, by rw [cremove_fst, sremove_fst], fun e => sremove_err_state t k e,
    fun e => cremove_err_state t k e⟩

theorem remove_error_contract_witness :
    (sremove (sinsert (trieNew Nat) ['a','b'] 1).2 ['a']).1
      = .error "No corresponding value" ∧
    (sremove (sinsert (trieNew Nat) ['a','b'] 1).2 ['a']).2
      = (sinsert (trieNew Nat) ['a','b'] 1).2 ∧
    (cremove (sinsert (trieNew Nat) ['a','b'] 1).2 []).1 = .error "Key can not be empty" := by
  refine ⟨rfl, ?_, rfl⟩
  exact (remove_error_contract Nat (sinsert (trieNew Nat) ['a','b'] 1).2 ['a']).2.2.1
    "No corresponding value" rfl

/-- C9: a successful `insert(k, v)` changes what `get` returns for no key
other than `k`: the lazily created intermediate nodes carry no value and
expose no new key.  Both variants. -/
theorem insert_frame_other_keys (T : Type) (t : TrieMap T) (k : List Char) (v : T)
    (k' : List Char) (hok : (sinsert t k v).1 = .ok ()) (hne : k' ≠ k) :
    sget (sinsert t k v).2 k' = sget t k' ∧
    cget (cinsert t k v).2 k' = cget t k' := by
  have h1 : sget (sinsert t k v).2 k' = sget t k' := by
    rw [sget_eq_vAt, sget_eq_vAt, sinsert_vAt t k v hok k', if_neg hne]
  refine ⟨h1, ?_⟩
  rw [cget_eq_sget, cget_eq_sget, cinsert_eq_sinsert]
  exact h1

theorem insert_frame_other_keys_witness :
    (sinsert (sinsert (trieNew Nat) ['a','c'] 2).2 ['a','b'] 1).1 = .ok () ∧
    sget (sinsert (sinsert (trieNew Nat) ['a','c'] 2).2 ['a','b'] 1).2 ['a','c'] = some 2 := by
  refine ⟨rfl, ?_⟩
  have h := (insert_frame_other_keys Nat (sinsert (trieNew Nat) ['a','c'] 2).2
    ['a','b'] 1 ['a','c'] rfl (by decide)).1
  rw [h]
  rfl

/-- C1 (failing on the code): the concurrent `Trie::remove` disturbs an
unrelated stored key.  With "ab" ↦ 1 and "ac" ↦ 2 stored, `remove("ab")`
succeeds — but afterwards `get("ac")` is absent: the downward candidate
computation never examines the top-level 'a' node (which has two children),
leaves the initial candidate (null parent, 'a'), and so removes the whole
top-level 'a' entry.  The single-threaded variant keeps "ac" on the same
sequence (see C5's theorem). -/
theorem concurrent_remove_disturbs_sibling_key :
    cget (cinsert (cinsert (trieNew Nat) ['a', 'b'] 1).2 ['a', 'c'] 2).2 ['a', 'c'] = some 2 ∧
    (cremove (cinsert (cinsert (trieNew Nat) ['a', 'b'] 1).2 ['a', 'c'] 2).2 ['a', 'b']).1
      = .ok () ∧
    cget (cremove (cinsert (cinsert (trieNew Nat) ['a', 'b'] 1).2 ['a', 'c'] 2).2
      ['a', 'b']).2 ['a', 'c'] = none :=
  ⟨rfl, rfl, rfl⟩

/-- C5 (failing on the code): the two variants are not the same algorithm.
On the sequence insert("ab",1); insert("ac",2); remove("ab") — every call
succeeding in both variants — the single-threaded trie still stores
"ac" ↦ 2 while the concurrent trie has lost it. -/
theorem variants_diverge_on_same_op_sequence :
    (sremove (runS (trieNew Nat)
        [TrieOp.insert ['a','b'] 1, TrieOp.insert ['a','c'] 2]) ['a','b']).1 = .ok () ∧
    (cremove (runC (trieNew Nat)
        [TrieOp.insert ['a','b'] 1, TrieOp.insert ['a','c'] 2]) ['a','b']).1 = .ok () ∧
    sget (runS (trieNew Nat)
      [TrieOp.insert ['a','b'] 1, TrieOp.insert ['a','c'] 2, TrieOp.remove ['a','b']])
      ['a','c'] = some 2 ∧
    cget (runC (trieNew Nat)
      [TrieOp.insert ['a','b'] 1, TrieOp.insert ['a','c'] 2, TrieOp.remove ['a','b']])
      ['a','c'] = none :=
  ⟨rfl, rfl, rfl, rfl⟩

/-- C2: once `insert(k, v)` has succeeded on the single-threaded trie,
`get k` yields `v` after any further sequence of operations that contains no
`remove k`; and a `remove k` (which always succeeds while the value is
stored) makes `get k` absent. -/
theorem insert_get_persists_until_remove (T : Type) (t : TrieMap T) (k : List Char) (v : T)
    (ops : List (TrieOp T)) (hok : (sinsert t k v).1 = .ok ())
    (hops : ∀ op ∈ ops, op ≠ TrieOp.remove k) :
    sget (runS (sinsert t k v).2 ops) k = some v ∧
    (∀ t' : TrieMap T, sget (sremove t' k).2 k = none) := by
  constructor
  · rw [sget_eq_vAt]
    apply runS_keeps ops _ k v _ hops
    rw [sinsert_vAt t k v hok k, if_pos rfl]
  · intro t'
    rw [sget_eq_vAt, sremove_vAt t' k k, if_pos rfl]

theorem insert_get_persists_until_remove_witness :
    (sinsert (trieNew Nat) ['a'] 7).1 = .ok () ∧
    sget (runS (sinsert (trieNew Nat) ['a'] 7).2
      [TrieOp.insert ['a','b'] 1, TrieOp.remove ['a','b'], TrieOp.get ['a']]) ['a']
      = some 7 := by
  refine ⟨rfl, (insert_get_persists_until_remove Nat (trieNew Nat) ['a'] 7
    [TrieOp.insert ['a','b'] 1, TrieOp.remove ['a','b'], TrieOp.get ['a']]
    rfl (by decide)).1⟩

/-- C3: starting from a fresh trie, after any sequence of operations — on
either variant — no node with an absent value and an empty child map exists
anywhere in the graph; and after inserting only "back" and removing "back",
the top-level entry for 'b' is entirely gone in both variants. -/
theorem no_dead_node_invariant (T : Type) (ops : List (TrieOp T)) :
    NoDeadMap (runS (trieNew T) ops) ∧ NoDeadMap (runC (trieNew T) ops) ∧
    alGet (runS (trieNew Nat)
      [TrieOp.insert ['b','a','c','k'] 0, TrieOp.remove ['b','a','c','k']]) 'b' = none ∧
    alGet (runC (trieNew Nat)
      [TrieOp.insert ['b','a','c','k'] 0, TrieOp.remove ['b','a','c','k']]) 'b' = none :=
  ⟨(runS_invariant ops _ (new_invariant T)).2, (runC_invariant ops _ (new_invariant T)).2,
    rfl, rfl⟩

theorem no_dead_node_invariant_witness :
    NoDeadMap (runS (trieNew Nat) [TrieOp.insert ['a'] 1, TrieOp.remove ['a']]) :=
  (no_dead_node_invariant Nat [TrieOp.insert ['a'] 1, TrieOp.remove ['a']]).1

/-- The trie holding "hel" ↦ 1, "hell" ↦ 2, "hello" ↦ 3. -/
def trieHel : TrieMap Nat :=
  (sinsert (sinsert (sinsert (trieNew Nat) ['h','e','l'] 1).2 ['h','e','l','l'] 2).2
    ['h','e','l','l','o'] 3).2

/-- `trieHel` with only the value of "hell" cleared: the shared "hel" prefix
path and the "hello" subtree are structurally intact. -/
def trieHelAfter : TrieMap Nat :=
  [('h', TrieNode.mk none [('e', TrieNode.mk none [('l', TrieNode.mk (some 1)
    [('l', TrieNode.mk none [('o', TrieNode.mk (some 3) [])])])])])]

/-- C4: when `remove(k)` reaches a terminal node that still has children,
both variants only clear that node's value; the node and its whole subtree
stay in place.  Concretely, after inserting "hel", "hell", "hello" and
removing "hell", "hel" and "hello" are present, "hell" is absent, and the
resulting map is `trieHel` with nothing changed but that one value. -/
theorem remove_terminal_with_children_clears_value_only :
    (∀ (T : Type) (t : TrieMap T) (k : List Char) (nN : TrieNode T),
      nodeAt (rootNode t) k = some nN → nN.isEnd = true → nN.children.isEmpty = false →
      sremove t k = (.ok (), (clearAt (rootNode t) k).children) ∧
      cremove t k = (.ok (), (clearAt (rootNode t) k).children) ∧
      nodeAt (rootNode (sremove t k).2) k = some (TrieNode.mk none nN.children) ∧
      nodeAt (rootNode (cremove t k).2) k = some (TrieNode.mk none nN.children)) ∧
    sget (sremove trieHel ['h','e','l','l']).2 ['h','e','l'] = some 1 ∧
    sget (sremove trieHel ['h','e','l','l']).2 ['h','e','l','l','o'] = some 3 ∧
    sget (sremove trieHel ['h','e','l','l']).2 ['h','e','l','l'] = none ∧
    (sremove trieHel ['h','e','l','l']).2 = trieHelAfter ∧
    cget (cremove trieHel ['h','e','l','l']).2 ['h','e','l'] = some 1 ∧
    cget (cremove trieHel ['h','e','l','l']).2 ['h','e','l','l','o'] = some 3 ∧
    cget (cremove trieHel ['h','e','l','l']).2 ['h','e','l','l'] = none ∧
    (cremove trieHel ['h','e','l','l']).2 = trieHelAfter := by
  refine ⟨?_, rfl, rfl, rfl, rfl, rfl, rfl, rfl, rfl⟩
  intro T t k nN hnode hend hch
  have hkne : k ≠ [] := by
    intro hx
    rw [hx] at hnode
    simp at hnode
    rw [← hnode] at hend
    simp [rootNode, TrieNode.isEnd] at hend
  have hs := sremove_clear t k nN hnode hend hch
  have hc := cremove_clear t k nN hnode hend hch
  have hval : (clearAt (rootNode t) k).value = none := by
    cases hkey : k with
    | nil => exact absurd hkey hkne
    | cons a p => exact clearAt_value_cons _ _ _
  refine ⟨hs, hc, ?_, ?_⟩
  · rw [hs]
    simp only
    rw [rootNode_children _ hval]
    exact nodeAt_clearAt k (rootNode t) nN hnode
  · rw [hc]
    simp only
    rw [rootNode_children _ hval]
    exact nodeAt_clearAt k (rootNode t) nN hnode

theorem remove_terminal_with_children_clears_value_only_witness :
    sremove trieHel ['h','e','l','l']
      = (.ok (), (clearAt (rootNode trieHel) ['h','e','l','l']).children) :=
  ((remove_terminal_with_children_clears_value_only).1 Nat trieHel ['h','e','l','l']
    (TrieNode.mk (some 2) [('o', TrieNode.mk (some 3) [])]) rfl rfl rfl).1
